import Mathlib

set_option maxHeartbeats 1000000

/-!
Verification development for the AutomatedGit orchestration pipeline.

The JavaScript source is shallowly embedded: pure helpers become Lean
functions on `Nat`/`List`/`String`; calendar dates are records of the
fields the code reads off a JS `Date` (`getFullYear`/`getMonth`/`getDate`),
with `getDay` realized by counting days in the proleptic Gregorian
calendar; randomness (`Math.random`) and git/network primitives are passed
in as explicit oracle arguments, so every function here is a total,
executable function of its inputs.
-/

namespace AutoGit

/-! ## Calendar model (src/dateUtils.js)

A JS `Date` normalized to midnight/noon of a civil day is represented by
the triple the code reads: `getFullYear()`, `getMonth()` (0-based) and
`getDate()` (1-based).  `getDay()` (0 = Sunday) is recovered by counting
days from 0000-01-01 of the proleptic Gregorian calendar, which is a
Saturday, matching the ECMAScript day-of-week semantics. -/

structure CivilDate where
  year : Nat
  month : Nat
  day : Nat
  deriving Repr, DecidableEq

/-- Gregorian leap-year rule, as used by ECMAScript `Date`. -/
def isLeapYear (y : Nat) : Bool :=
  (y % 4 == 0 && y % 100 != 0) || y % 400 == 0

/-- Number of days of month `m` (0-based, JS convention) in year `y`. -/
def daysInMonth (y m : Nat) : Nat :=
  match m with
  | 1 => if isLeapYear y then 29 else 28
  | 3 => 30
  | 5 => 30
  | 8 => 30
  | 10 => 30
  | _ => 31

/-- Number of days of year `y` (365 or 366). -/
def daysInYear (y : Nat) : Nat :=
  if isLeapYear y then 366 else 365

/-- Days elapsed from 0000-01-01 to the start of year `y`, in closed form:
365 days per year plus one for every leap year before `y` (years divisible
by 4, minus centuries, plus quadricentennials; year 0 is leap). -/
def daysBeforeYear (y : Nat) : Nat :=
  365 * y + (y + 3) / 4 - (y + 99) / 100 + (y + 399) / 400

/-- Days elapsed from the start of year `y` to the start of its month `m`. -/
def daysBeforeMonth (y : Nat) : Nat → Nat
  | 0 => 0
  | m + 1 => daysBeforeMonth y m + daysInMonth y m

/-- Linear day number of a date (0000-01-01 ↦ 0). -/
def dayNumber (d : CivilDate) : Nat :=
  daysBeforeYear d.year + daysBeforeMonth d.year d.month + (d.day - 1)

/-- A structurally valid calendar date: month in 0..11 and day in
1..`daysInMonth`, the invariant a normalized JS `Date` maintains. -/
def ValidCivil (d : CivilDate) : Prop :=
  d.month ≤ 11 ∧ 1 ≤ d.day ∧ d.day ≤ daysInMonth d.year d.month

instance (d : CivilDate) : Decidable (ValidCivil d) := by
  unfold ValidCivil; infer_instance

/-- Successor day, the effect of `currentDate.setDate(currentDate.getDate() + 1)`
on a normalized date (JS `Date` rolls the overflow into the next month/year). -/
def nextDay (d : CivilDate) : CivilDate :=
  if d.day < daysInMonth d.year d.month then
    ⟨d.year, d.month, d.day + 1⟩
  else if d.month < 11 then
    ⟨d.year, d.month + 1, 1⟩
  else
    ⟨d.year + 1, 0, 1⟩

/-- Day of week, 0 = Sunday, matching JS `getDay()`: day 0 of the proleptic
Gregorian calendar (0000-01-01) is a Saturday, hence the offset 6. -/
def dayOfWeek (d : CivilDate) : Nat :=
  (dayNumber d + 6) % 7

/-- Embedding of `isSunday` (src/dateUtils.js): `date.getDay() === 0`. -/
def isSunday (d : CivilDate) : Bool :=
  dayOfWeek d == 0

/-- Embedding of the `COUNTRY_HOLIDAYS` table (src/dateUtils.js) as an
association list from country code to `(month, day)` pairs, month 0-based
as in the source.  The `name` field of each entry is omitted: no code path
reads it. -/
def COUNTRY_HOLIDAYS : List (String × List (Nat × Nat)) :=
  [ ("US", [(0,1),(0,15),(1,19),(4,27),(6,4),(8,2),(9,8),(10,11),(10,22),(11,25)]),
    ("UK", [(0,1),(2,17),(3,1),(4,6),(4,27),(7,26),(11,25),(11,26)]),
    ("CA", [(0,1),(2,17),(3,1),(4,20),(6,1),(8,2),(9,8),(10,11),(11,25),(11,26)]),
    ("AU", [(0,1),(0,26),(3,25),(5,10),(11,25),(11,26)]),
    ("DE", [(0,1),(4,1),(9,3),(10,1),(11,25),(11,26)]),
    ("FR", [(0,1),(4,1),(4,8),(6,14),(7,15),(10,1),(10,11),(11,25)]),
    ("JP", [(0,1),(1,11),(2,20),(3,29),(4,3),(4,4),(4,5),(6,15),(7,11),(8,16),(8,22),(9,8),(10,3),(10,23),(11,23)]),
    ("IN", [(0,26),(7,15),(9,2),(9,31)]),
    ("BR", [(0,1),(1,20),(3,21),(4,1),(8,7),(9,12),(10,2),(10,15),(11,25)]),
    ("MX", [(0,1),(1,5),(2,21),(4,1),(8,16),(10,2),(10,20),(11,25)]),
    ("CN", [(0,1),(1,10),(3,4),(4,1),(4,4),(9,1),(9,1)]),
    ("KR", [(0,1),(2,1),(4,5),(5,6),(7,15),(9,3),(9,9),(11,25)]),
    ("IT", [(0,1),(0,6),(3,25),(4,1),(5,2),(7,15),(10,1),(11,8),(11,25),(11,26)]),
    ("ES", [(0,1),(0,6),(3,19),(4,1),(9,12),(10,1),(11,6),(11,8),(11,25)]),
    ("RU", [(0,1),(0,7),(1,23),(2,8),(4,1),(4,9),(5,12),(10,4)]),
    ("ZA", [(0,1),(2,21),(3,27),(4,1),(5,16),(7,9),(8,24),(11,16),(11,25),(11,26)]),
    ("AR", [(0,1),(2,24),(3,2),(4,1),(4,25),(5,20),(6,9),(7,17),(9,12),(11,8),(11,25)]),
    ("CL", [(0,1),(4,1),(4,21),(6,16),(8,18),(8,19),(9,12),(10,1),(11,8),(11,25)]),
    ("NL", [(0,1),(3,27),(4,5),(11,25),(11,26)]),
    ("SE", [(0,1),(0,6),(4,1),(5,6),(5,24),(10,1),(11,25),(11,26)]),
    ("NO", [(0,1),(4,1),(4,17),(11,25),(11,26)]),
    ("PL", [(0,1),(0,6),(4,1),(4,3),(6,15),(10,1),(10,11),(11,25),(11,26)]),
    ("TR", [(0,1),(3,23),(4,1),(4,19),(7,30),(9,29)]),
    ("SA", [(1,22),(8,23)]),
    ("AE", [(0,1),(7,30),(9,2),(11,1),(11,2)]),
    ("SG", [(0,1),(1,10),(1,11),(4,1),(7,9),(11,25)]),
    ("PH", [(0,1),(1,25),(3,9),(4,1),(5,12),(7,26),(10,30),(11,25),(11,30)]),
    ("ID", [(0,1),(4,1),(7,17),(11,25)]),
    ("TH", [(0,1),(3,13),(4,1),(4,5),(6,28),(9,13),(11,5),(11,10),(11,31)]),
    ("VN", [(0,1),(1,10),(3,30),(3,30),(4,1),(8,2)]),
    ("NZ", [(0,1),(0,2),(1,6),(3,25),(5,3),(9,23),(11,25),(11,26)]),
    ("CH", [(0,1),(0,2),(4,1),(7,1),(11,25),(11,26)]),
    ("BE", [(0,1),(4,1),(6,21),(7,15),(10,1),(10,11),(11,25)]),
    ("PT", [(0,1),(3,25),(4,1),(5,10),(7,15),(9,5),(10,1),(11,1),(11,8),(11,25)]),
    ("GR", [(0,1),(0,6),(2,25),(4,1),(7,15),(9,28),(11,25),(11,26)]),
    ("NONE", []) ]

/-- Own-key reading of `getHolidaysForCountry`
(`COUNTRY_HOLIDAYS[countryCode] || COUNTRY_HOLIDAYS['NONE']`): the object
literal as a finite map of its own properties, an absent key falling back
to the empty `NONE` list.  This is the source's behavior on every code
that is not a member name of `Object.prototype` — in particular on all
supported region codes; `getHolidaysForCountryJs` below models the full
JS property lookup including the prototype chain. -/
def getHolidaysForCountry (countryCode : String) : List (Nat × Nat) :=
  match (COUNTRY_HOLIDAYS.lookup countryCode) with
  | some hs => hs
  | none => []

/-- Member names of `Object.prototype`: a property access on an object
literal that misses every own key continues into the prototype chain, and
for these names yields the inherited method or accessor instead of
`undefined`. -/
def OBJECT_PROTOTYPE_MEMBERS : List String :=
  ["constructor", "hasOwnProperty", "isPrototypeOf", "propertyIsEnumerable",
   "toLocaleString", "toString", "valueOf", "__proto__",
   "__defineGetter__", "__defineSetter__", "__lookupGetter__", "__lookupSetter__"]

/-- Value of the JS expression `COUNTRY_HOLIDAYS[countryCode]` when it is
not `undefined`: either an own holiday array or an object inherited from
`Object.prototype`. -/
inductive JsValue where
  | holidayList (hs : List (Nat × Nat))
  | inheritedObject (name : String)
  deriving Repr, DecidableEq

/-- JS property access `COUNTRY_HOLIDAYS[countryCode]`: own properties
first, then the `Object.prototype` chain, `none` for `undefined`. -/
def countryHolidaysProperty (code : String) : Option JsValue :=
  match COUNTRY_HOLIDAYS.lookup code with
  | some hs => some (JsValue.holidayList hs)
  | none =>
      if OBJECT_PROTOTYPE_MEMBERS.contains code then some (JsValue.inheritedObject code)
      else none

/-- Full model of `COUNTRY_HOLIDAYS[countryCode] || COUNTRY_HOLIDAYS['NONE']`:
arrays and inherited objects are truthy, so the `||` fallback to the empty
`NONE` list fires exactly when the property access yields `undefined`. -/
def getHolidaysForCountryJs (code : String) : JsValue :=
  match countryHolidaysProperty code with
  | some v => v
  | none => JsValue.holidayList []

deriving instance DecidableEq for Except

/-- Full model of `isHoliday`: `holidays.some(...)` computes the match on
an array, and throws a `TypeError` when the lookup produced an inherited
non-array object. -/
def isHolidayJs (d : CivilDate) (code : String) : Except String Bool :=
  match getHolidaysForCountryJs code with
  | JsValue.holidayList hs =>
      Except.ok (hs.any fun h => h.1 == d.month && h.2 == d.day)
  | JsValue.inheritedObject _ =>
      Except.error "TypeError: holidays.some is not a function"

/-- Full model of `shouldExcludeDate`:
`isSunday(date) || isHoliday(date, countryCode)` short-circuits, so on a
Sunday the holiday lookup (and any `TypeError` it would throw) is never
reached. -/
def shouldExcludeDateJs (d : CivilDate) (code : String) : Except String Bool :=
  if isSunday d then Except.ok true else isHolidayJs d code

/-- Embedding of `isHoliday`: some table entry for the country matches the
date's `getMonth()`/`getDate()` pair. -/
def isHoliday (d : CivilDate) (countryCode : String) : Bool :=
  (getHolidaysForCountry countryCode).any fun h => h.1 == d.month && h.2 == d.day

/-- Embedding of `shouldExcludeDate`: Sunday or holiday. -/
def shouldExcludeDate (d : CivilDate) (countryCode : String) : Bool :=
  isSunday d || isHoliday d countryCode

/-- Loop body of `getValidDates`, with the number of remaining iterations
made explicit.  The loop guard `currentDate <= endDate` of the source is
kept (JS compares the timestamps of two same-time-of-day dates, which on
normalized dates is exactly the `dayNumber` order); the fuel passed by
`getValidDates` below is exactly the number of days the guard admits, so
the fuel never runs out before the guard turns false. -/
def getValidDatesGo (countryCode : String) (endD : CivilDate) : Nat → CivilDate → List CivilDate
  | 0, _ => []
  | fuel + 1, cur =>
    if dayNumber cur ≤ dayNumber endD then
      (if shouldExcludeDate cur countryCode then [] else [cur]) ++
        getValidDatesGo countryCode endD fuel (nextDay cur)
    else []

/-- Embedding of `getValidDates` (src/dateUtils.js): walk from `startD` to
`endD` one day at a time, keeping the dates not excluded. -/
def getValidDates (startD endD : CivilDate) (countryCode : String) : List CivilDate :=
  getValidDatesGo countryCode endD (dayNumber endD + 1 - dayNumber startD) startD

/-! ## Work partitioner (src/unnamed/part_001, `/api/process-stream` handler)

The handler validates `numBranches ≥ 1`, `totalCommits ≥ 1`,
`totalCommits ≥ numBranches`, `start ≤ end` and a non-empty eligible pool,
then clamps the branch count to the pool size, selects dates by shuffling
and slicing, and distributes commits starting from one per branch.

Randomness is an explicit input.  The two `sort(() => Math.random() - 0.5)`
calls are embedded as oracle functions (ECMAScript leaves the result of a
sort with an inconsistent comparator unspecified beyond being a
rearrangement, so the theorems assume only that the oracle permutes its
input), and each `Math.floor(Math.random() * actualNumBranches)` draw is
one value of the `draws` oracle. -/

/-- One `commitsPerBranch[randomBranch]++` step of the distribution loop. -/
def bumpAt (v : List Nat) (j : Nat) : List Nat :=
  v.set j (v.getD j 0 + 1)

/-- The distribution loop: `remaining` single-credit increments at the
branch indices given by the successive random draws. -/
def distributeRemaining (draws : Nat → Nat) (v : List Nat) (remaining : Nat) : List Nat :=
  (List.range remaining).foldl (fun acc i => bumpAt acc (draws i)) v

/-- The plan the handler computes before its per-date loop. -/
structure WorkPlan where
  actualNumBranches : Nat
  adjustedBranches : Bool
  datesToProcess : List CivilDate
  commitsPerBranch : List Nat
  deriving Repr, DecidableEq

/-- Embedding of the partitioning block of the handler (clamp, shuffle,
slice, fill with ones, distribute, shuffle again).  `totalCommits -
actualNumBranches` matches the source under the validation precondition
`totalCommits ≥ numBranches ≥ actualNumBranches`. -/
def buildWorkPlan (validDates : List CivilDate) (numBranches totalCommits : Nat)
    (shuffleDates : List CivilDate → List CivilDate) (draws : Nat → Nat)
    (shuffleCounts : List Nat → List Nat) : WorkPlan :=
  let actualNumBranches := if validDates.length < numBranches then validDates.length else numBranches
  let adjustedBranches := decide (validDates.length < numBranches)
  let shuffledDates := shuffleDates validDates
  let datesToProcess := shuffledDates.take actualNumBranches
  let start := List.replicate actualNumBranches 1
  let remainingCommits := totalCommits - actualNumBranches
  let distributed := distributeRemaining draws start remainingCommits
  let commitsPerBranch := shuffleCounts distributed
  ⟨actualNumBranches, adjustedBranches, datesToProcess, commitsPerBranch⟩

/-- The per-date loop pairs `datesToProcess[i]` with `commitsPerBranch[i]`:
the plan's assignments. -/
def planAssignments (p : WorkPlan) : List (CivilDate × Nat) :=
  p.datesToProcess.zip p.commitsPerBranch

/-- Number of `Math.random` draw sequences (of `k` draws, each one of the
`2 ^ 53` equally likely doubles of `[0, 1)`) on which a shuffle
implementation `g` outputs the arrangement `out`. -/
def shuffleFiberCount (k : Nat) (g : (Fin k → Fin (2 ^ 53)) → List CivilDate)
    (out : List CivilDate) : Nat :=
  (Finset.univ.filter fun c => g c = out).card

/-- Spec-side reading of "unbiased random permutation (every arrangement
of the pool is equally likely)": for some number `k` of `Math.random`
draws there is a shuffle implementation mapping every draw sequence to a
rearrangement of `pool` such that all arrangements of `pool` are hit by
the same number of draw sequences. -/
def UnbiasedCoinShuffle (pool : List CivilDate) : Prop :=
  ∃ (k : Nat) (g : (Fin k → Fin (2 ^ 53)) → List CivilDate),
    (∀ c, (g c).Perm pool) ∧
    (∀ p q : List CivilDate, p.Perm pool → q.Perm pool →
      shuffleFiberCount k g p = shuffleFiberCount k g q)

/-! ### String primitives

JS `String.prototype.startsWith`, `trim` and `includes` are modelled at
the character-list level (`String.data`), which matches their semantics on
the ASCII content this program manipulates and keeps every definition
evaluable. -/

/-- JS `line.startsWith(pat)`. -/
def strStartsWith (line pat : String) : Bool :=
  pat.data.isPrefixOf line.data

/-- JS `s.trim()`: strip whitespace from both ends. -/
def strTrim (s : String) : String :=
  ⟨((s.data.dropWhile Char.isWhitespace).reverse.dropWhile Char.isWhitespace).reverse⟩

/-- Character-list core of JS `s.includes(pat)`. -/
def containsSub (s pat : List Char) : Bool :=
  pat.isPrefixOf s ||
    (match s with
     | [] => false
     | _ :: tl => containsSub tl pat)

/-! ## Conflict resolver (src/gitOperations.js, `resolveFileConflicts`)

The source splits the file content on `'\n'`, runs one of two line-level
passes depending on whether the file is `commits.txt`, and joins the
result back with `'\n'`.  The embedding works on the line list obtained
from that split.  The `seenLines` JS `Set` is a list of trimmed lines kept
duplicate-free by the guarded insertions. -/

/-- Parser mode of the `commits.txt` pass of the resolver. -/
inductive MarkerMode where
  | normal
  | ours
  | theirs
  deriving Repr, DecidableEq

/-- State of the `commits.txt` pass: accumulated output, the set of
trimmed lines already emitted, the current mode, and the two buffers of
the open conflict region. -/
structure CommitsResolveState where
  resolved : List String
  seen : List String
  mode : MarkerMode
  oursContent : List String
  theirsContent : List String
  deriving Repr, DecidableEq

/-- The guarded emission used both for normal lines and for the combined
hunk lines: skip the line if its trimmed form is empty or already seen,
otherwise emit it and remember the trimmed form. -/
def dedupPush (acc : List String × List String) (line : String) : List String × List String :=
  let trimmed := strTrim line
  if trimmed = "" then acc
  else if acc.2.contains trimmed then acc
  else (acc.1 ++ [line], acc.2 ++ [trimmed])

/-- One line of the `commits.txt` pass of `resolveFileConflicts`. -/
def commitsResolveStep (st : CommitsResolveState) (line : String) : CommitsResolveState :=
  if strStartsWith line "<<<<<<<" then
    { st with mode := MarkerMode.ours, oursContent := [], theirsContent := [] }
  else if strStartsWith line "=======" then
    { st with mode := MarkerMode.theirs }
  else if strStartsWith line ">>>>>>>" then
    let combined := st.oursContent ++ st.theirsContent
    let p := combined.foldl dedupPush (st.resolved, st.seen)
    ⟨p.1, p.2, MarkerMode.normal, [], []⟩
  else
    match st.mode with
    | MarkerMode.ours =>
        if strTrim line = "" then st else { st with oursContent := st.oursContent ++ [line] }
    | MarkerMode.theirs =>
        if strTrim line = "" then st else { st with theirsContent := st.theirsContent ++ [line] }
    | MarkerMode.normal =>
        let p := dedupPush (st.resolved, st.seen) line
        { st with resolved := p.1, seen := p.2 }

/-- The `commits.txt` branch of `resolveFileConflicts`, at the line level:
union-merge with trimmed-content deduplication. -/
def resolveCommitsLines (lines : List String) : List String :=
  (lines.foldl commitsResolveStep ⟨[], [], MarkerMode.normal, [], []⟩).resolved

/-- State of the default (non-`commits.txt`) pass: accumulated output plus
the `inConflict` / `keepOurs` flags of the source. -/
structure OursResolveState where
  resolved : List String
  inConflict : Bool
  keepOurs : Bool
  deriving Repr, DecidableEq

/-- One line of the default pass of `resolveFileConflicts`. -/
def oursResolveStep (st : OursResolveState) (line : String) : OursResolveState :=
  if strStartsWith line "<<<<<<<" then
    { st with inConflict := true, keepOurs := true }
  else if strStartsWith line "=======" then
    { st with keepOurs := false }
  else if strStartsWith line ">>>>>>>" then
    { st with inConflict := false, keepOurs := true }
  else if !st.inConflict || st.keepOurs then
    { st with resolved := st.resolved ++ [line] }
  else
    st

/-- The default branch of `resolveFileConflicts`: keep every line outside a
conflict region and the "ours" side of each region. -/
def resolveOtherLines (lines : List String) : List String :=
  (lines.foldl oursResolveStep ⟨[], false, true⟩).resolved

/-! ### Spec-side model of a two-way conflicted file

To state what the resolver does, a conflicted file is modelled as a list
of chunks: either an ordinary line, or a two-way conflict region carrying
its "ours" and "theirs" line blocks.  `renderChunks` prints such a file
with its conflict markers; well-formedness says no carried line itself
looks like a marker. -/

inductive FileChunk where
  | plain (line : String)
  | conflict (ours theirs : List String)
  deriving Repr, DecidableEq

/-- Print a chunked file back to its marker syntax. -/
def renderChunks : List FileChunk → List String
  | [] => []
  | FileChunk.plain l :: cs => l :: renderChunks cs
  | FileChunk.conflict o t :: cs =>
      "<<<<<<< HEAD" :: o ++ ["======="] ++ t ++ (">>>>>>> branch" :: renderChunks cs)

/-- A content line is marker-free when it does not begin with any of the
three conflict markers. -/
def markerFree (l : String) : Bool :=
  !(strStartsWith l "<<<<<<<") && !(strStartsWith l "=======") && !(strStartsWith l ">>>>>>>")

/-- A line whose trimmed form is non-empty (JS truthiness of
`line.trim()`). -/
def notBlank (l : String) : Bool :=
  strTrim l != ""

/-- Well-formed chunked file: every carried line is marker-free. -/
def chunksWF : List FileChunk → Bool
  | [] => true
  | FileChunk.plain l :: cs => markerFree l && chunksWF cs
  | FileChunk.conflict o t :: cs =>
      o.all markerFree && t.all markerFree && chunksWF cs

/-- Candidate line sequence of the union-merge described by the spec:
non-conflicting lines in place, and at each conflict region the "ours"
block followed by the "theirs" block. -/
def flattenChunks : List FileChunk → List String
  | [] => []
  | FileChunk.plain l :: cs => l :: flattenChunks cs
  | FileChunk.conflict o t :: cs => o ++ t ++ flattenChunks cs

/-- Spec-side union merge: the candidate sequence with blank lines dropped
and deduplicated by exact trimmed content, first occurrence kept. -/
def unionDedup (lines : List String) : List String :=
  (lines.foldl dedupPush ([], [])).1

/-- Spec-side "ours" projection: non-conflicting lines in place and only
the "ours" block of each conflict region. -/
def oursProjection : List FileChunk → List String
  | [] => []
  | FileChunk.plain l :: cs => l :: oursProjection cs
  | FileChunk.conflict o _ :: cs => o ++ oursProjection cs

/-- Invariant tying the emitted lines of the dedup accumulator to its seen
set: emitted lines are non-blank with their trims recorded, every recorded
trim comes from an emitted line, and no two emitted lines share a trim. -/
def DedupInv (p : List String × List String) : Prop :=
  (∀ x ∈ p.1, strTrim x ≠ "" ∧ strTrim x ∈ p.2) ∧
  (∀ t ∈ p.2, ∃ x ∈ p.1, strTrim x = t) ∧
  List.Pairwise (fun a b => strTrim a ≠ strTrim b) p.1

/-! ## Push and branch reconciliation (src/gitOperations.js)

`pushBranch` calls the git push primitive and, exactly when the first
(non-forced) attempt fails with a message containing `non-fast-forward` or
`fetch first`, re-invokes itself once with `forcePush = true`.  The
primitive is an oracle from the force flag to an outcome; the embedding
also records the trace of force flags of the attempts actually issued.
The source wraps failure messages in `Error pushing branch: ...`; the
embedding returns the primitive's message unchanged. -/

/-- Outcome of one git push primitive call. -/
inductive PushResult where
  | ok
  | fail (msg : String)
  deriving Repr, DecidableEq

/-- JS `String.prototype.includes`: `pat` occurs somewhere in `s`. -/
def includesSub (s pat : String) : Bool :=
  containsSub s.data pat.data

/-- The retry condition of `pushBranch`: the error message mentions a
non-fast-forward rejection. -/
def isNonFastForwardMsg (msg : String) : Bool :=
  includesSub msg "non-fast-forward" || includesSub msg "fetch first"

/-- Embedding of `pushBranch`.  The recursive self-call with
`forcePush = true` is inlined: on that call the `!forcePush` guard is
false, so it can never retry again. -/
def pushBranch (attempt : Bool → PushResult) (forcePush : Bool) : List Bool × PushResult :=
  match attempt forcePush with
  | PushResult.ok => ([forcePush], PushResult.ok)
  | PushResult.fail msg =>
    if !forcePush && isNonFastForwardMsg msg then
      match attempt true with
      | PushResult.ok => ([forcePush, true], PushResult.ok)
      | PushResult.fail msg2 => ([forcePush, true], PushResult.fail msg2)
    else
      ([forcePush], PushResult.fail msg)

/-- Repository actions of `createBranch` relevant to branch
reconciliation. -/
inductive GitAction where
  | deleteRemoteBranch
  | checkoutExisting
  | checkoutNew
  deriving Repr, DecidableEq

/-- Embedding of the action sequence of `createBranch`: when the branch
exists remotely and no force push was requested, the remote branch is
deleted first (failures of the deletion are logged and ignored), then the
local branch is checked out or created. -/
def createBranchActions (existsLocally existsRemotely forcePush : Bool) : List GitAction :=
  (if existsRemotely && !forcePush then [GitAction.deleteRemoteBranch] else []) ++
    [if existsLocally then GitAction.checkoutExisting else GitAction.checkoutNew]

/-! ## Commit synthesis (src/gitOperations.js, `createCommits`)

`createCommits` receives the assignment date as a `YYYY-MM-DD` string,
splits it into numeric year / month / day (the embedding takes the three
components directly), builds `new Date(year, month - 1, day, 12, 0, 0)` —
the calendar date at local noon — and loops `commitCount` times, each
iteration appending one line to `commits.txt` and committing with
`--date` set to that noon timestamp.  The function never reads the
current wall-clock time; the embedding takes a `now` argument to make
that explicit.  The tracked file is the list of its lines. -/

/-- Local wall-clock fields of a JS `Date` constructed as
`new Date(year, monthIndex, day, hour, minute, second)`. -/
structure LocalTime where
  year : Nat
  monthIndex : Nat
  day : Nat
  hour : Nat
  minute : Nat
  second : Nat
  deriving Repr, DecidableEq

/-- The commit timestamp: the assignment's calendar date (1-based month
`m`) at local noon. -/
def noonOf (y m d : Nat) : LocalTime :=
  ⟨y, m - 1, d, 12, 0, 0⟩

/-- Rendering of the date string the source interpolates into messages and
file lines. -/
def dateString (y m d : Nat) : String :=
  toString y ++ "-" ++ toString m ++ "-" ++ toString d

/-- The line appended to `commits.txt` by commit number `i + 1`. -/
def commitLine (y m d : Nat) (i : Nat) : String :=
  dateString y m d ++ " - Commit " ++ toString (i + 1) ++ " at noon"

/-- One synthesized commit: its message, its authored timestamp, and the
tree (the tracked file's lines) it commits. -/
structure CommitRecord where
  message : String
  authorDate : LocalTime
  tree : List String
  deriving Repr, DecidableEq

/-- Loop of `createCommits`: `i` is the zero-based index of the next
commit, the remaining count drives the recursion. -/
def createCommitsGo (y m d : Nat) (content : List String) (i : Nat) :
    Nat → List String × List CommitRecord
  | 0 => (content, [])
  | n + 1 =>
    let line := commitLine y m d i
    let content' := content ++ [line]
    let c : CommitRecord :=
      ⟨"Auto commit " ++ toString (i + 1) ++ " for " ++ dateString y m d,
        noonOf y m d, content'⟩
    let r := createCommitsGo y m d content' (i + 1) n
    (r.1, c :: r.2)

/-- Embedding of `createCommits`: final file content and the list of
commits created.  `now` is the wall-clock time of the run; the body never
consults it, which is the formal content of "independent of the wall
clock". -/
def createCommits (content : List String) (commitCount : Nat) (y m d : Nat)
    (_now : LocalTime) : List String × List CommitRecord :=
  createCommitsGo y m d content 0 commitCount

/-! ## Review lifecycle: find-or-create (src/prOperations.js)

`findPRForBranch` queries the remote for open pull requests with the given
head, then filters on head, base and open state and takes the first.
`createAndMergePR` reuses a found request and creates one otherwise.  The
remote is modelled as the list of its pull requests; creation appends a
new open request with a fresh number. -/

/-- A remote pull request as the controller reads it. -/
structure PullRequest where
  number : Nat
  headRef : String
  baseRef : String
  state : String
  deriving Repr, DecidableEq

/-- Embedding of `findPRForBranch`: the remote answers the
`head=...&state=open` query, the controller filters on head, base and
state and takes the first match. -/
def findPRForBranch (remote : List PullRequest) (branchName baseBranch : String) :
    Option PullRequest :=
  ((remote.filter fun pr => pr.state == "open" && pr.headRef == branchName).filter
    fun pr =>
      pr.headRef == branchName && pr.baseRef == baseBranch && pr.state == "open").head?

/-- Outcome of one `createAndMergePR` invocation: the remote afterwards,
whether a request was created (`prCreated`), and the request number used. -/
structure CreatePROutcome where
  remote : List PullRequest
  prCreated : Bool
  prNumber : Nat
  deriving Repr, DecidableEq

/-- Embedding of the find-or-create phase of `createAndMergePR` (GitHub
path): reuse an existing open request for the pair, otherwise create a new
open request, which the remote records under a fresh number. -/
def createAndMergePR (remote : List PullRequest) (branchName baseBranch : String)
    (freshNumber : Nat) : CreatePROutcome :=
  match findPRForBranch remote branchName baseBranch with
  | some pr => ⟨remote, false, pr.number⟩
  | none =>
      ⟨remote ++ [⟨freshNumber, branchName, baseBranch, "open"⟩], true, freshNumber⟩

/-! ## Per-assignment loop (src/unnamed/part_001, `/api/process-stream`)

The handler iterates the selected dates in order, `await`ing
`processDate` for each; a returned failure or a thrown exception becomes
that iteration's entry of `results` and the loop moves on.  The outcome of
one `processDate` call is an oracle indexed by the date. -/

/-- The per-assignment record pushed onto `results`. -/
structure ResultRecord where
  success : Bool
  date : String
  message : String
  deriving Repr, DecidableEq

/-- What one `processDate` call did: returned a record, or threw. -/
inductive StepOutcome where
  | returned (r : ResultRecord)
  | threw (msg : String)
  deriving Repr, DecidableEq

/-- The record the loop body pushes for one date: the returned record, or
the synthetic failure record built in the `catch` block. -/
def stepRecord (date : String) : StepOutcome → ResultRecord
  | StepOutcome.returned r => r
  | StepOutcome.threw msg => ⟨false, date, "Exception: " ++ msg⟩

/-- Embedding of the per-date loop: fold over the dates, appending one
record per date. -/
def processLoop (dates : List String) (outcome : String → StepOutcome) : List ResultRecord :=
  dates.foldl (fun acc date => acc ++ [stepRecord date (outcome date)]) []

/-- The summary counters of the terminal event:
`successCount = results.filter(r => r.success).length` and
`failureCount = results.length - successCount`. -/
def runSummary (results : List ResultRecord) : Nat × Nat :=
  let successCount := (results.filter fun r => r.success).length
  (successCount, results.length - successCount)

/-! ## HTTP redirect following (src/prOperations.js, `makeRequest`)

`makeRequest` carries a `redirectCount`; a response with a redirect status
and a location re-invokes it with the counter incremented, and a counter
of 5 or more rejects with `Too many redirects (max 5)` before issuing any
request.  Responses are an oracle indexed by the redirect counter; the
embedding additionally counts the HTTP requests actually issued. -/

/-- A response as `makeRequest` discriminates it: a redirect (status 301,
302, 307 or 308 with a location header) or a final response. -/
inductive HttpResponse where
  | redirect (location : String)
  | final (status : Nat)
  deriving Repr, DecidableEq

/-- Embedding of `makeRequest`: number of requests issued and the result
(`Except.error` is promise rejection). -/
def makeRequest (responses : Nat → HttpResponse) (redirectCount : Nat) :
    Nat × Except String Nat :=
  if _h : redirectCount ≥ 5 then
    (0, Except.error "Too many redirects (max 5)")
  else
    match responses redirectCount with
    | HttpResponse.final status => (1, Except.ok status)
    | HttpResponse.redirect _ =>
        let r := makeRequest responses (redirectCount + 1)
        (r.1 + 1, r.2)
  termination_by 5 - redirectCount
  decreasing_by omega

/-! ## Calendar lemmas -/

theorem daysBeforeYear_succ (y : Nat) :
    daysBeforeYear (y + 1) = daysBeforeYear y + daysInYear y := by
  have hiff : isLeapYear y = true ↔ ((y % 4 = 0 ∧ y % 100 ≠ 0) ∨ y % 400 = 0) := by
    simp [isLeapYear]
  cases h : isLeapYear y
  · have hn : ¬ ((y % 4 = 0 ∧ y % 100 ≠ 0) ∨ y % 400 = 0) := by
      rw [← hiff]; simp [h]
    simp only [daysBeforeYear, daysInYear, h, Bool.false_eq_true, if_false]
    omega
  · have hp := hiff.mp h
    simp only [daysBeforeYear, daysInYear, h, if_true]
    omega

theorem daysBeforeMonth_top (y : Nat) : daysBeforeMonth y 12 = daysInYear y := by
  cases h : isLeapYear y <;>
    [(simp only [daysInYear, h, Bool.false_eq_true, if_false];
      norm_num [daysBeforeMonth, daysInMonth, h]);
     (simp only [daysInYear, h, if_true];
      norm_num [daysBeforeMonth, daysInMonth, h])]

theorem daysInMonth_pos (y m : Nat) : 1 ≤ daysInMonth y m := by
  unfold daysInMonth
  split <;> first | split <;> omega | omega

theorem validCivil_nextDay {d : CivilDate} (h : ValidCivil d) : ValidCivil (nextDay d) := by
  obtain ⟨y, m, day⟩ := d
  obtain ⟨hm, hd1, hd2⟩ := h
  dsimp only at hm hd1 hd2
  unfold nextDay
  dsimp only
  by_cases h1 : day < daysInMonth y m
  · rw [if_pos h1]
    show m ≤ 11 ∧ 1 ≤ day + 1 ∧ day + 1 ≤ daysInMonth y m
    omega
  · rw [if_neg h1]
    by_cases h2 : m < 11
    · rw [if_pos h2]
      show m + 1 ≤ 11 ∧ 1 ≤ 1 ∧ 1 ≤ daysInMonth y (m + 1)
      exact ⟨by omega, le_refl 1, daysInMonth_pos y (m + 1)⟩
    · rw [if_neg h2]
      show 0 ≤ 11 ∧ 1 ≤ 1 ∧ 1 ≤ daysInMonth (y + 1) 0
      exact ⟨by omega, le_refl 1, daysInMonth_pos (y + 1) 0⟩

theorem dayNumber_nextDay {d : CivilDate} (h : ValidCivil d) :
    dayNumber (nextDay d) = dayNumber d + 1 := by
  obtain ⟨y, m, day⟩ := d
  obtain ⟨hm, hd1, hd2⟩ := h
  dsimp only at hm hd1 hd2
  have e : ∀ mm : Nat, daysBeforeMonth y (mm + 1) = daysBeforeMonth y mm + daysInMonth y mm :=
    fun mm => rfl
  unfold nextDay
  dsimp only
  by_cases h1 : day < daysInMonth y m
  · rw [if_pos h1]
    show daysBeforeYear y + daysBeforeMonth y m + (day + 1 - 1) =
      daysBeforeYear y + daysBeforeMonth y m + (day - 1) + 1
    omega
  · rw [if_neg h1]
    by_cases h2 : m < 11
    · rw [if_pos h2]
      show daysBeforeYear y + daysBeforeMonth y (m + 1) + (1 - 1) =
        daysBeforeYear y + daysBeforeMonth y m + (day - 1) + 1
      have := e m
      omega
    · rw [if_neg h2]
      have hm11 : m = 11 := by omega
      subst hm11
      have e12 : daysBeforeMonth y 12 = daysBeforeMonth y 11 + daysInMonth y 11 := rfl
      have htop := daysBeforeMonth_top y
      have hy := daysBeforeYear_succ y
      have h31 : daysInMonth y 11 = 31 := rfl
      show daysBeforeYear (y + 1) + daysBeforeMonth (y + 1) 0 + (1 - 1) =
        daysBeforeYear y + daysBeforeMonth y 11 + (day - 1) + 1
      have hz : daysBeforeMonth (y + 1) 0 = 0 := rfl
      omega

theorem validCivil_iterate {d : CivilDate} (h : ValidCivil d) (k : Nat) :
    ValidCivil (nextDay^[k] d) := by
  induction k generalizing d with
  | zero => simpa using h
  | succ n ih =>
      rw [Function.iterate_succ_apply]
      exact ih (validCivil_nextDay h)

theorem dayNumber_iterate {d : CivilDate} (h : ValidCivil d) (k : Nat) :
    dayNumber (nextDay^[k] d) = dayNumber d + k := by
  induction k generalizing d with
  | zero => simp
  | succ n ih =>
      rw [Function.iterate_succ_apply, ih (validCivil_nextDay h), dayNumber_nextDay h]
      omega

theorem getValidDatesGo_eq (countryCode : String) (endD : CivilDate) :
    ∀ (n : Nat) (cur : CivilDate), ValidCivil cur →
      n = dayNumber endD + 1 - dayNumber cur →
      getValidDatesGo countryCode endD n cur =
        ((List.range n).map (fun k => nextDay^[k] cur)).filter
          (fun d => !shouldExcludeDate d countryCode) := by
  intro n
  induction n with
  | zero => intro cur _ _; simp [getValidDatesGo]
  | succ m ih =>
      intro cur hv hn
      have hle : dayNumber cur ≤ dayNumber endD := by omega
      rw [getValidDatesGo, if_pos hle]
      rw [List.range_succ_eq_map]
      rw [ih (nextDay cur) (validCivil_nextDay hv) (by rw [dayNumber_nextDay hv]; omega)]
      simp only [List.map_cons, List.map_map, List.filter_cons, Function.iterate_zero_apply]
      cases hex : shouldExcludeDate cur countryCode <;>
        simp [Function.comp_def, Function.iterate_succ_apply, hex]

theorem lookup_eq_none_of_not_mem_keys {β : Type} (l : List (String × β)) (c : String)
    (h : c ∉ l.map Prod.fst) : l.lookup c = none := by
  induction l with
  | nil => rfl
  | cons p l ih =>
      obtain ⟨k, v⟩ := p
      simp only [List.map_cons, List.mem_cons, not_or] at h
      obtain ⟨h1, h2⟩ := h
      have hck : (c == k) = false := by
        simp only [beq_eq_false_iff_ne]
        simpa using h1
      simp only [List.lookup, hck]
      exact ih h2

/-- C4: for every date and region, the exclusion predicate holds exactly
on Sundays and listed holidays of the region, and `getValidDates` returns
exactly the non-excluded dates of the inclusive range, in ascending date
order; on 2024-01-01..2024-01-07 under US the eligible pool is exactly
2024-01-02..2024-01-06. -/
theorem validDates_characterization (s e : CivilDate) (countryCode : String)
    (hs : ValidCivil s) :
    (∀ d : CivilDate, shouldExcludeDate d countryCode = true ↔
        (isSunday d = true ∨ ∃ p ∈ getHolidaysForCountry countryCode,
          p.1 = d.month ∧ p.2 = d.day)) ∧
    getValidDates s e countryCode =
      ((List.range (dayNumber e + 1 - dayNumber s)).map (fun k => nextDay^[k] s)).filter
        (fun d => !shouldExcludeDate d countryCode) ∧
    (∀ k : Nat, dayNumber (nextDay^[k] s) = dayNumber s + k) ∧
    List.Pairwise (fun a b => dayNumber a < dayNumber b) (getValidDates s e countryCode) ∧
    getValidDates ⟨2024, 0, 1⟩ ⟨2024, 0, 7⟩ "US" =
      [⟨2024, 0, 2⟩, ⟨2024, 0, 3⟩, ⟨2024, 0, 4⟩, ⟨2024, 0, 5⟩, ⟨2024, 0, 6⟩] := by
  have hchar : getValidDates s e countryCode =
      ((List.range (dayNumber e + 1 - dayNumber s)).map (fun k => nextDay^[k] s)).filter
        (fun d => !shouldExcludeDate d countryCode) :=
    getValidDatesGo_eq countryCode e _ s hs rfl
  refine ⟨?_, hchar, dayNumber_iterate hs, ?_, by rfl⟩
  · intro d
    simp only [shouldExcludeDate, Bool.or_eq_true, isHoliday, List.any_eq_true,
      Bool.and_eq_true, beq_iff_eq]
  · rw [hchar]
    apply List.Pairwise.filter
    rw [List.pairwise_map]
    apply List.Pairwise.imp ?_ (List.pairwise_lt_range _)
    intro a b hab
    rw [dayNumber_iterate hs, dayNumber_iterate hs]
    omega

theorem validDates_characterization_witness :
    ValidCivil ⟨2024, 0, 1⟩ ∧
    ((∀ d : CivilDate, shouldExcludeDate d "US" = true ↔
        (isSunday d = true ∨ ∃ p ∈ getHolidaysForCountry "US",
          p.1 = d.month ∧ p.2 = d.day)) ∧
      getValidDates ⟨2024, 0, 1⟩ ⟨2024, 0, 7⟩ "US" =
        ((List.range (dayNumber ⟨2024, 0, 7⟩ + 1 - dayNumber ⟨2024, 0, 1⟩)).map
          (fun k => nextDay^[k] (⟨2024, 0, 1⟩ : CivilDate))).filter
          (fun d => !shouldExcludeDate d "US") ∧
      (∀ k : Nat, dayNumber (nextDay^[k] (⟨2024, 0, 1⟩ : CivilDate)) =
        dayNumber ⟨2024, 0, 1⟩ + k) ∧
      List.Pairwise (fun a b => dayNumber a < dayNumber b)
        (getValidDates ⟨2024, 0, 1⟩ ⟨2024, 0, 7⟩ "US") ∧
      getValidDates ⟨2024, 0, 1⟩ ⟨2024, 0, 7⟩ "US" =
        [⟨2024, 0, 2⟩, ⟨2024, 0, 3⟩, ⟨2024, 0, 4⟩, ⟨2024, 0, 5⟩, ⟨2024, 0, 6⟩]) :=
  ⟨by decide, validDates_characterization ⟨2024, 0, 1⟩ ⟨2024, 0, 7⟩ "US" (by decide)⟩

theorem lookup_eq_some_of_mem_keys {β : Type} (l : List (String × β)) (c : String)
    (h : c ∈ l.map Prod.fst) : ∃ v, l.lookup c = some v := by
  induction l with
  | nil => simp at h
  | cons p l ih =>
      obtain ⟨k, v⟩ := p
      simp only [List.map_cons, List.mem_cons] at h
      by_cases hck : c = k
      · subst hck
        exact ⟨v, by simp [List.lookup]⟩
      · have hck2 : (c == k) = false := by
          simp only [beq_eq_false_iff_ne]
          exact hck
        have h2 : c ∈ l.map Prod.fst := by
          rcases h with h1 | h1
          · exact absurd h1 hck
          · exact h1
        obtain ⟨w, hw⟩ := ih h2
        exact ⟨w, by simp [List.lookup, hck2, hw]⟩

theorem isHolidayJs_agrees_on_listed (c : String) (h : c ∈ COUNTRY_HOLIDAYS.map Prod.fst)
    (d : CivilDate) : isHolidayJs d c = Except.ok (isHoliday d c) := by
  obtain ⟨hs, hl⟩ := lookup_eq_some_of_mem_keys COUNTRY_HOLIDAYS c h
  simp [isHolidayJs, getHolidaysForCountryJs, countryHolidaysProperty, hl,
    isHoliday, getHolidaysForCountry]

/-- C9 counterexample: `toString` is not a listed code, yet the JS
property lookup finds the method inherited from `Object.prototype` — a
truthy non-array — so `getHolidaysForCountry` does not return the empty
list, and `isHoliday` throws a `TypeError` on the non-Sunday 2024-01-02
instead of being false, so exclusion does not degrade to Sundays-only. -/
theorem prototypeChain_counterexample :
    "toString" ∉ COUNTRY_HOLIDAYS.map Prod.fst ∧
    getHolidaysForCountryJs "toString" ≠ JsValue.holidayList [] ∧
    getHolidaysForCountryJs "toString" = JsValue.inheritedObject "toString" ∧
    isHolidayJs ⟨2024, 0, 2⟩ "toString" ≠ Except.ok false ∧
    isHolidayJs ⟨2024, 0, 2⟩ "toString" =
      Except.error "TypeError: holidays.some is not a function" ∧
    shouldExcludeDateJs ⟨2024, 0, 2⟩ "toString" ≠
      Except.ok (isSunday ⟨2024, 0, 2⟩) := by
  decide

/-- C9 (amended): a country code that is neither listed in the holiday
table nor an `Object.prototype` member name gets the empty holiday list,
no date is a holiday there, and exclusion degrades to Sundays-only
without failing; a non-listed code that is an `Object.prototype` member
name instead yields the inherited object, `isHoliday` throws a
`TypeError`, and `shouldExcludeDate` throws on every non-Sunday (Sundays
still return `true` through the short-circuit). -/
theorem unknownCountry_lookup_behavior (c : String)
    (h : c ∉ COUNTRY_HOLIDAYS.map Prod.fst) :
    (c ∉ OBJECT_PROTOTYPE_MEMBERS →
      getHolidaysForCountryJs c = JsValue.holidayList [] ∧
      (∀ d : CivilDate, isHolidayJs d c = Except.ok false) ∧
      (∀ d : CivilDate, shouldExcludeDateJs d c = Except.ok (isSunday d))) ∧
    (c ∈ OBJECT_PROTOTYPE_MEMBERS →
      getHolidaysForCountryJs c = JsValue.inheritedObject c ∧
      (∀ d : CivilDate, isHolidayJs d c =
        Except.error "TypeError: holidays.some is not a function") ∧
      (∀ d : CivilDate, shouldExcludeDateJs d c =
        if isSunday d then Except.ok true
        else Except.error "TypeError: holidays.some is not a function")) := by
  have hl : COUNTRY_HOLIDAYS.lookup c = none :=
    lookup_eq_none_of_not_mem_keys _ _ h
  constructor
  · intro hprot
    have hget : getHolidaysForCountryJs c = JsValue.holidayList [] := by
      simp [getHolidaysForCountryJs, countryHolidaysProperty, hl, hprot]
    refine ⟨hget, ?_, ?_⟩
    · intro d
      simp [isHolidayJs, hget]
    · intro d
      unfold shouldExcludeDateJs
      cases hs : isSunday d
      · simp only [Bool.false_eq_true, if_false]
        simp [isHolidayJs, hget]
      · simp
  · intro hprot
    have hget : getHolidaysForCountryJs c = JsValue.inheritedObject c := by
      simp [getHolidaysForCountryJs, countryHolidaysProperty, hl, hprot]
    refine ⟨hget, ?_, ?_⟩
    · intro d
      simp [isHolidayJs, hget]
    · intro d
      unfold shouldExcludeDateJs
      cases hs : isSunday d
      · simp only [Bool.false_eq_true, if_false]
        simp [isHolidayJs, hget]
      · simp

theorem unknownCountry_lookup_behavior_witness :
    "ZZ" ∉ COUNTRY_HOLIDAYS.map Prod.fst ∧
    (("ZZ" ∉ OBJECT_PROTOTYPE_MEMBERS →
      getHolidaysForCountryJs "ZZ" = JsValue.holidayList [] ∧
      (∀ d : CivilDate, isHolidayJs d "ZZ" = Except.ok false) ∧
      (∀ d : CivilDate, shouldExcludeDateJs d "ZZ" = Except.ok (isSunday d))) ∧
    ("ZZ" ∈ OBJECT_PROTOTYPE_MEMBERS →
      getHolidaysForCountryJs "ZZ" = JsValue.inheritedObject "ZZ" ∧
      (∀ d : CivilDate, isHolidayJs d "ZZ" =
        Except.error "TypeError: holidays.some is not a function") ∧
      (∀ d : CivilDate, shouldExcludeDateJs d "ZZ" =
        if isSunday d then Except.ok true
        else Except.error "TypeError: holidays.some is not a function"))) :=
  ⟨by decide, unknownCountry_lookup_behavior "ZZ" (by decide)⟩

/-! ## Partitioner lemmas -/

theorem bumpAt_length (v : List Nat) (j : Nat) : (bumpAt v j).length = v.length := by
  simp [bumpAt]

theorem bumpAt_sum (v : List Nat) (j : Nat) (h : j < v.length) :
    (bumpAt v j).sum = v.sum + 1 := by
  induction v generalizing j with
  | nil => simp at h
  | cons a tl ih =>
      cases j with
      | zero => simp [bumpAt]; omega
      | succ jj =>
          have hj : jj < tl.length := by simpa using h
          simp only [bumpAt, List.getD_cons_succ, List.set_cons_succ, List.sum_cons] at *
          rw [ih jj hj]
          omega

theorem bumpAt_one_le (v : List Nat) (j : Nat) (h : ∀ x ∈ v, 1 ≤ x) :
    ∀ x ∈ bumpAt v j, 1 ≤ x := by
  intro x hx
  rcases List.mem_or_eq_of_mem_set hx with h1 | rfl
  · exact h x h1
  · omega

theorem bumpAt_getD (v : List Nat) (j j' : Nat) (hj : j < v.length) :
    (bumpAt v j).getD j' 0 = v.getD j' 0 + (if j = j' then 1 else 0) := by
  induction v generalizing j j' with
  | nil => simp at hj
  | cons a tl ih =>
      cases j with
      | zero =>
          cases j' with
          | zero => simp [bumpAt]
          | succ k => simp [bumpAt]
      | succ jj =>
          have hj' : jj < tl.length := by simpa using hj
          cases j' with
          | zero => simp [bumpAt]
          | succ k =>
              simp only [bumpAt, List.getD_cons_succ, List.set_cons_succ] at *
              rw [ih jj k hj']
              simp [Nat.succ_inj]

theorem distributeRemaining_succ (draws : Nat → Nat) (v : List Nat) (r : Nat) :
    distributeRemaining draws v (r + 1) =
      bumpAt (distributeRemaining draws v r) (draws r) := by
  unfold distributeRemaining
  rw [List.range_succ, List.foldl_append]
  rfl

theorem distributeRemaining_length (draws : Nat → Nat) (v : List Nat) (r : Nat) :
    (distributeRemaining draws v r).length = v.length := by
  induction r with
  | zero => rfl
  | succ n ih => rw [distributeRemaining_succ, bumpAt_length, ih]

theorem distributeRemaining_sum (draws : Nat → Nat) (v : List Nat) (r : Nat)
    (h : ∀ i, draws i < v.length) :
    (distributeRemaining draws v r).sum = v.sum + r := by
  induction r with
  | zero => rfl
  | succ n ih =>
      rw [distributeRemaining_succ,
        bumpAt_sum _ _ (by rw [distributeRemaining_length]; exact h n), ih]
      omega

theorem distributeRemaining_one_le (draws : Nat → Nat) (v : List Nat) (r : Nat)
    (h : ∀ x ∈ v, 1 ≤ x) :
    ∀ x ∈ distributeRemaining draws v r, 1 ≤ x := by
  induction r with
  | zero => exact h
  | succ n ih =>
      rw [distributeRemaining_succ]
      exact bumpAt_one_le _ _ ih

theorem distributeRemaining_getD (draws : Nat → Nat) (v : List Nat) (r : Nat)
    (h : ∀ i, draws i < v.length) (j : Nat) :
    (distributeRemaining draws v r).getD j 0 =
      v.getD j 0 + ((List.range r).filter fun i => draws i = j).length := by
  induction r with
  | zero => simp [distributeRemaining]
  | succ n ih =>
      rw [distributeRemaining_succ, bumpAt_getD, ih]
      · rw [List.range_succ, List.filter_append]
        simp only [List.length_append, List.filter_cons, List.filter_nil]
        split <;> rename_i hdn <;> (simp_all; try omega)
      · rw [distributeRemaining_length]
        exact h n

/-- C1: under the endpoint's validation (`commitBudget ≥ branchBudget ≥ 1`,
non-empty eligible pool) and with the randomness oracles only assumed to
permute their inputs, the plan's commit counts sum to the commit budget,
every count is at least 1, the number of assignments is
`min branchBudget (pool size)`, and a pool smaller than the branch budget
clamps the branch count and reports `adjustedBranches = true`. -/
theorem workPlan_invariants (validDates : List CivilDate) (numBranches totalCommits : Nat)
    (shuffleDates : List CivilDate → List CivilDate) (draws : Nat → Nat)
    (shuffleCounts : List Nat → List Nat)
    (hperm1 : (shuffleDates validDates).Perm validDates)
    (hperm2 : ∀ v : List Nat, (shuffleCounts v).Perm v)
    (hdraws : ∀ i : Nat, draws i < min numBranches validDates.length)
    (_hb : 1 ≤ numBranches) (hc : numBranches ≤ totalCommits) (hne : validDates ≠ []) :
    (buildWorkPlan validDates numBranches totalCommits shuffleDates draws
        shuffleCounts).commitsPerBranch.sum = totalCommits ∧
    (∀ c ∈ (buildWorkPlan validDates numBranches totalCommits shuffleDates draws
        shuffleCounts).commitsPerBranch, 1 ≤ c) ∧
    (planAssignments (buildWorkPlan validDates numBranches totalCommits shuffleDates draws
        shuffleCounts)).length = min numBranches validDates.length ∧
    (buildWorkPlan validDates numBranches totalCommits shuffleDates draws
        shuffleCounts).actualNumBranches = min numBranches validDates.length ∧
    (validDates.length < numBranches →
      (buildWorkPlan validDates numBranches totalCommits shuffleDates draws
          shuffleCounts).actualNumBranches = validDates.length ∧
      (buildWorkPlan validDates numBranches totalCommits shuffleDates draws
          shuffleCounts).adjustedBranches = true) := by
  simp only [buildWorkPlan, planAssignments]
  have hmin : (if validDates.length < numBranches then validDates.length else numBranches) =
      min numBranches validDates.length := by
    split <;> omega
  rw [hmin]
  have hlen_pool : 0 < validDates.length := List.length_pos.mpr hne
  have hn_le_pool : min numBranches validDates.length ≤ validDates.length :=
    Nat.min_le_right _ _
  have hn_le_tc : min numBranches validDates.length ≤ totalCommits :=
    le_trans (Nat.min_le_left _ _) hc
  have hrep_len : (List.replicate (min numBranches validDates.length) 1).length =
      min numBranches validDates.length := List.length_replicate _ _
  have hdraws' : ∀ i, draws i < (List.replicate (min numBranches validDates.length) 1).length := by
    intro i; rw [hrep_len]; exact hdraws i
  refine ⟨?_, ?_, ?_, rfl, ?_⟩
  · rw [(hperm2 _).sum_eq, distributeRemaining_sum _ _ _ hdraws']
    rw [List.sum_replicate, smul_eq_mul, mul_one]
    omega
  · intro c hc2
    rw [(hperm2 _).mem_iff] at hc2
    refine distributeRemaining_one_le _ _ _ ?_ c hc2
    intro x hx
    rw [List.eq_of_mem_replicate hx]
  · rw [List.length_zip, (hperm2 _).length_eq, distributeRemaining_length, hrep_len,
      List.length_take, hperm1.length_eq]
    omega
  · intro hlt
    constructor
    · omega
    · simp [hlt]

theorem workPlan_invariants_witness :
    (([⟨2024, 0, 2⟩, ⟨2024, 0, 3⟩, ⟨2024, 0, 4⟩] : List CivilDate).reverse).Perm
      [⟨2024, 0, 2⟩, ⟨2024, 0, 3⟩, ⟨2024, 0, 4⟩] ∧
    ((buildWorkPlan [⟨2024, 0, 2⟩, ⟨2024, 0, 3⟩, ⟨2024, 0, 4⟩] 2 5 List.reverse
        (fun _ => 0) List.reverse).commitsPerBranch.sum = 5 ∧
      (∀ c ∈ (buildWorkPlan [⟨2024, 0, 2⟩, ⟨2024, 0, 3⟩, ⟨2024, 0, 4⟩] 2 5 List.reverse
          (fun _ => 0) List.reverse).commitsPerBranch, 1 ≤ c) ∧
      (planAssignments (buildWorkPlan [⟨2024, 0, 2⟩, ⟨2024, 0, 3⟩, ⟨2024, 0, 4⟩] 2 5 List.reverse
          (fun _ => 0) List.reverse)).length =
        min 2 ([⟨2024, 0, 2⟩, ⟨2024, 0, 3⟩, ⟨2024, 0, 4⟩] : List CivilDate).length ∧
      (buildWorkPlan [⟨2024, 0, 2⟩, ⟨2024, 0, 3⟩, ⟨2024, 0, 4⟩] 2 5 List.reverse
          (fun _ => 0) List.reverse).actualNumBranches =
        min 2 ([⟨2024, 0, 2⟩, ⟨2024, 0, 3⟩, ⟨2024, 0, 4⟩] : List CivilDate).length ∧
      (([⟨2024, 0, 2⟩, ⟨2024, 0, 3⟩, ⟨2024, 0, 4⟩] : List CivilDate).length < 2 →
        (buildWorkPlan [⟨2024, 0, 2⟩, ⟨2024, 0, 3⟩, ⟨2024, 0, 4⟩] 2 5 List.reverse
            (fun _ => 0) List.reverse).actualNumBranches =
          ([⟨2024, 0, 2⟩, ⟨2024, 0, 3⟩, ⟨2024, 0, 4⟩] : List CivilDate).length ∧
        (buildWorkPlan [⟨2024, 0, 2⟩, ⟨2024, 0, 3⟩, ⟨2024, 0, 4⟩] 2 5 List.reverse
            (fun _ => 0) List.reverse).adjustedBranches = true)) :=
  ⟨by decide,
    workPlan_invariants [⟨2024, 0, 2⟩, ⟨2024, 0, 3⟩, ⟨2024, 0, 4⟩] 2 5 List.reverse
      (fun _ => 0) List.reverse (by decide) (fun v => v.reverse_perm)
      (by intro i; show (0 : Nat) < min 2 3; decide) (by decide) (by decide) (by decide)⟩

/-- C5 counterexample: the claim's "unbiased random permutation (every
arrangement of the pool is equally likely)" is impossible for the
`sort(() => Math.random() - 0.5)` shuffle of the source: any shuffle
driven by finitely many `Math.random` draws partitions a power-of-two
number of draw sequences among the 6 arrangements of a 3-element pool,
and 6 does not divide a power of two. -/
theorem sortShuffle_not_unbiased :
    ¬ UnbiasedCoinShuffle [⟨2024, 0, 2⟩, ⟨2024, 0, 3⟩, ⟨2024, 0, 4⟩] := by
  rintro ⟨k, g, hperm, hunif⟩
  classical
  have hsub : ∀ c : Fin k → Fin (2 ^ 53), c ∈ Finset.univ →
      g c ∈ ([⟨2024, 0, 2⟩, ⟨2024, 0, 3⟩, ⟨2024, 0, 4⟩] : List CivilDate).permutations.toFinset := by
    intro c _
    rw [List.mem_toFinset, List.mem_permutations]
    exact hperm c
  have hcard := Finset.card_eq_sum_card_fiberwise hsub
  rw [Finset.card_univ, Fintype.card_fun, Fintype.card_fin, Fintype.card_fin] at hcard
  have hall : ∀ out ∈ ([⟨2024, 0, 2⟩, ⟨2024, 0, 3⟩, ⟨2024, 0, 4⟩] :
      List CivilDate).permutations.toFinset,
      (Finset.univ.filter fun c => g c = out).card =
        shuffleFiberCount k g [⟨2024, 0, 2⟩, ⟨2024, 0, 3⟩, ⟨2024, 0, 4⟩] := by
    intro out hout
    rw [List.mem_toFinset, List.mem_permutations] at hout
    exact hunif out _ hout (List.Perm.refl _)
  rw [Finset.sum_congr rfl hall, Finset.sum_const, smul_eq_mul] at hcard
  have hnd : ([⟨2024, 0, 2⟩, ⟨2024, 0, 3⟩, ⟨2024, 0, 4⟩] :
      List CivilDate).permutations.Nodup :=
    List.nodup_permutations _ (by decide)
  have htcard : (([⟨2024, 0, 2⟩, ⟨2024, 0, 3⟩, ⟨2024, 0, 4⟩] :
      List CivilDate).permutations.toFinset).card = 6 := by
    rw [List.toFinset_card_of_nodup hnd, List.length_permutations]
    rfl
  rw [htcard] at hcard
  have h3 : (3 : Nat) ∣ (2 ^ 53) ^ k :=
    ⟨2 * shuffleFiberCount k g [⟨2024, 0, 2⟩, ⟨2024, 0, 3⟩, ⟨2024, 0, 4⟩], by omega⟩
  rw [← pow_mul] at h3
  have h32 : (3 : Nat) ∣ 2 := Nat.Prime.dvd_of_dvd_pow Nat.prime_three h3
  omega

/-- C5 (amended): with randomness explicit, the partitioner takes a prefix
of a comparator-driven rearrangement of the pool — a selection without
replacement of `min branchBudget (pool size)` distinct pool dates, though
not an unbiased one — gives every branch one commit plus one credit for
each random draw that hits its index, and finally applies another
comparator-driven rearrangement to the count vector. -/
theorem workPartitioner_selection (validDates : List CivilDate)
    (numBranches totalCommits : Nat)
    (shuffleDates : List CivilDate → List CivilDate) (draws : Nat → Nat)
    (shuffleCounts : List Nat → List Nat)
    (hperm1 : (shuffleDates validDates).Perm validDates)
    (hperm2 : ∀ v : List Nat, (shuffleCounts v).Perm v)
    (hdraws : ∀ i : Nat, draws i < min numBranches validDates.length) :
    (∀ d ∈ (buildWorkPlan validDates numBranches totalCommits shuffleDates draws
        shuffleCounts).datesToProcess, d ∈ validDates) ∧
    (validDates.Nodup →
      (buildWorkPlan validDates numBranches totalCommits shuffleDates draws
          shuffleCounts).datesToProcess.Nodup) ∧
    (buildWorkPlan validDates numBranches totalCommits shuffleDates draws
        shuffleCounts).datesToProcess.length = min numBranches validDates.length ∧
    (buildWorkPlan validDates numBranches totalCommits shuffleDates draws
        shuffleCounts).commitsPerBranch.Perm
      (distributeRemaining draws (List.replicate (min numBranches validDates.length) 1)
        (totalCommits - min numBranches validDates.length)) ∧
    (∀ j < min numBranches validDates.length,
      (distributeRemaining draws (List.replicate (min numBranches validDates.length) 1)
          (totalCommits - min numBranches validDates.length)).getD j 0 =
        1 + ((List.range (totalCommits - min numBranches validDates.length)).filter
          fun i => draws i = j).length) := by
  simp only [buildWorkPlan]
  have hmin : (if validDates.length < numBranches then validDates.length else numBranches) =
      min numBranches validDates.length := by
    split <;> omega
  rw [hmin]
  have hrep_len : (List.replicate (min numBranches validDates.length) 1).length =
      min numBranches validDates.length := List.length_replicate _ _
  have hdraws' : ∀ i, draws i < (List.replicate (min numBranches validDates.length) 1).length := by
    intro i; rw [hrep_len]; exact hdraws i
  refine ⟨?_, ?_, ?_, hperm2 _, ?_⟩
  · intro d hd
    exact hperm1.mem_iff.mp (List.take_subset _ _ hd)
  · intro hnd
    exact ((hperm1.nodup_iff).mpr hnd).sublist (List.take_sublist _ _)
  · rw [List.length_take, hperm1.length_eq]
    omega
  · intro j hj
    rw [distributeRemaining_getD _ _ _ hdraws' j]
    have : (List.replicate (min numBranches validDates.length) 1).getD j 0 = 1 := by
      rw [List.getD_eq_getElem?_getD, List.getElem?_replicate]
      simp [hj]
    rw [this]

/-! ## Conflict resolver lemmas -/

theorem dedupPush_blank (p : List String × List String) (l : String) (h : strTrim l = "") :
    dedupPush p l = p := by
  simp [dedupPush, h]

theorem foldl_dedupPush_filter (ls : List String) (p : List String × List String) :
    (ls.filter notBlank).foldl dedupPush p = ls.foldl dedupPush p := by
  induction ls generalizing p with
  | nil => rfl
  | cons l tl ih =>
      by_cases h : strTrim l = ""
      · have hnb : notBlank l = false := by simp [notBlank, h]
        simp only [List.filter_cons, hnb, if_false, Bool.false_eq_true, List.foldl_cons,
          dedupPush_blank _ _ h]
        exact ih p
      · have hnb : notBlank l = true := by simp [notBlank, h]
        simp only [List.filter_cons, hnb, if_true, List.foldl_cons]
        exact ih _

theorem commitsFold_ours (o : List String) (ho : o.all markerFree = true)
    (res seen oc tc : List String) :
    o.foldl commitsResolveStep ⟨res, seen, MarkerMode.ours, oc, tc⟩ =
      ⟨res, seen, MarkerMode.ours, oc ++ o.filter notBlank, tc⟩ := by
  induction o generalizing oc with
  | nil => simp
  | cons l tl ih =>
      simp only [List.all_cons, Bool.and_eq_true] at ho
      obtain ⟨hml, htl⟩ := ho
      simp only [markerFree, Bool.and_eq_true, Bool.not_eq_true'] at hml
      obtain ⟨⟨h1, h2⟩, h3⟩ := hml
      rw [List.foldl_cons]
      by_cases hb : strTrim l = ""
      · have hnb : notBlank l = false := by simp [notBlank, hb]
        have hstep : commitsResolveStep ⟨res, seen, MarkerMode.ours, oc, tc⟩ l =
            ⟨res, seen, MarkerMode.ours, oc, tc⟩ := by
          simp [commitsResolveStep, h1, h2, h3, hb]
        rw [hstep, List.filter_cons, hnb]
        simpa using ih htl oc
      · have hnb : notBlank l = true := by simp [notBlank, hb]
        have hstep : commitsResolveStep ⟨res, seen, MarkerMode.ours, oc, tc⟩ l =
            ⟨res, seen, MarkerMode.ours, oc ++ [l], tc⟩ := by
          simp [commitsResolveStep, h1, h2, h3, hb]
        rw [hstep, List.filter_cons, hnb]
        rw [ih htl (oc ++ [l])]
        simp

theorem commitsFold_theirs (t : List String) (ht : t.all markerFree = true)
    (res seen oc tc : List String) :
    t.foldl commitsResolveStep ⟨res, seen, MarkerMode.theirs, oc, tc⟩ =
      ⟨res, seen, MarkerMode.theirs, oc, tc ++ t.filter notBlank⟩ := by
  induction t generalizing tc with
  | nil => simp
  | cons l tl ih =>
      simp only [List.all_cons, Bool.and_eq_true] at ht
      obtain ⟨hml, htl⟩ := ht
      simp only [markerFree, Bool.and_eq_true, Bool.not_eq_true'] at hml
      obtain ⟨⟨h1, h2⟩, h3⟩ := hml
      rw [List.foldl_cons]
      by_cases hb : strTrim l = ""
      · have hnb : notBlank l = false := by simp [notBlank, hb]
        have hstep : commitsResolveStep ⟨res, seen, MarkerMode.theirs, oc, tc⟩ l =
            ⟨res, seen, MarkerMode.theirs, oc, tc⟩ := by
          simp [commitsResolveStep, h1, h2, h3, hb]
        rw [hstep, List.filter_cons, hnb]
        simpa using ih htl tc
      · have hnb : notBlank l = true := by simp [notBlank, hb]
        have hstep : commitsResolveStep ⟨res, seen, MarkerMode.theirs, oc, tc⟩ l =
            ⟨res, seen, MarkerMode.theirs, oc, tc ++ [l]⟩ := by
          simp [commitsResolveStep, h1, h2, h3, hb]
        rw [hstep, List.filter_cons, hnb]
        rw [ih htl (tc ++ [l])]
        simp

theorem commitsFold_render (cs : List FileChunk) (hwf : chunksWF cs = true) :
    ∀ res seen : List String,
      (renderChunks cs).foldl commitsResolveStep ⟨res, seen, MarkerMode.normal, [], []⟩ =
        ⟨((flattenChunks cs).foldl dedupPush (res, seen)).1,
          ((flattenChunks cs).foldl dedupPush (res, seen)).2,
          MarkerMode.normal, [], []⟩ := by
  induction cs with
  | nil => intro res seen; rfl
  | cons c cs ih =>
      intro res seen
      cases c with
      | plain l =>
          simp only [chunksWF, Bool.and_eq_true] at hwf
          obtain ⟨hml, hrest⟩ := hwf
          simp only [markerFree, Bool.and_eq_true, Bool.not_eq_true'] at hml
          obtain ⟨⟨h1, h2⟩, h3⟩ := hml
          have hstep : commitsResolveStep ⟨res, seen, MarkerMode.normal, [], []⟩ l =
              ⟨(dedupPush (res, seen) l).1, (dedupPush (res, seen) l).2,
                MarkerMode.normal, [], []⟩ := by
            simp [commitsResolveStep, h1, h2, h3]
          simp only [renderChunks, flattenChunks, List.foldl_cons, hstep]
          rw [ih hrest]
      | conflict o t =>
          simp only [chunksWF, Bool.and_eq_true] at hwf
          obtain ⟨⟨ho, hts⟩, hrest⟩ := hwf
          have hopen : commitsResolveStep ⟨res, seen, MarkerMode.normal, [], []⟩
              "<<<<<<< HEAD" = ⟨res, seen, MarkerMode.ours, [], []⟩ := by
            simp [commitsResolveStep, show strStartsWith "<<<<<<< HEAD" "<<<<<<<" = true
              by decide]
          have hmid : commitsResolveStep ⟨res, seen, MarkerMode.ours, o.filter notBlank, []⟩
              "=======" = ⟨res, seen, MarkerMode.theirs, o.filter notBlank, []⟩ := by
            simp [commitsResolveStep, show strStartsWith "=======" "<<<<<<<" = false
              by decide, show strStartsWith "=======" "=======" = true by decide]
          have hclose : commitsResolveStep
              ⟨res, seen, MarkerMode.theirs, o.filter notBlank, t.filter notBlank⟩
              ">>>>>>> branch" =
              ⟨((o.filter notBlank ++ t.filter notBlank).foldl dedupPush (res, seen)).1,
                ((o.filter notBlank ++ t.filter notBlank).foldl dedupPush (res, seen)).2,
                MarkerMode.normal, [], []⟩ := by
            simp [commitsResolveStep, show strStartsWith ">>>>>>> branch" "<<<<<<<" = false
              by decide, show strStartsWith ">>>>>>> branch" "=======" = false by decide,
              show strStartsWith ">>>>>>> branch" ">>>>>>>" = true by decide]
          have s1 : List.foldl commitsResolveStep
              ⟨res, seen, MarkerMode.normal, [], []⟩ ("<<<<<<< HEAD" :: o) =
              ⟨res, seen, MarkerMode.ours, o.filter notBlank, []⟩ := by
            rw [List.foldl_cons, hopen, commitsFold_ours o ho res seen [] [],
              List.nil_append]
          have s2 : List.foldl commitsResolveStep
              ⟨res, seen, MarkerMode.ours, o.filter notBlank, []⟩ ["======="] =
              ⟨res, seen, MarkerMode.theirs, o.filter notBlank, []⟩ := by
            rw [List.foldl_cons, List.foldl_nil, hmid]
          have s3 : List.foldl commitsResolveStep
              ⟨res, seen, MarkerMode.theirs, o.filter notBlank, []⟩ t =
              ⟨res, seen, MarkerMode.theirs, o.filter notBlank, t.filter notBlank⟩ := by
            rw [commitsFold_theirs t hts res seen (o.filter notBlank) [], List.nil_append]
          simp only [renderChunks, flattenChunks]
          rw [List.foldl_append, List.foldl_append, List.foldl_append]
          rw [s1, s2, s3, List.foldl_cons, hclose, ih hrest]
          simp only [List.foldl_append, foldl_dedupPush_filter]

theorem oursFold_keep (ls : List String) (hl : ls.all markerFree = true) (res : List String) :
    ls.foldl oursResolveStep ⟨res, true, true⟩ = ⟨res ++ ls, true, true⟩ := by
  induction ls generalizing res with
  | nil => simp
  | cons l tl ih =>
      simp only [List.all_cons, Bool.and_eq_true] at hl
      obtain ⟨hml, htl⟩ := hl
      simp only [markerFree, Bool.and_eq_true, Bool.not_eq_true'] at hml
      obtain ⟨⟨h1, h2⟩, h3⟩ := hml
      have hstep : oursResolveStep ⟨res, true, true⟩ l = ⟨res ++ [l], true, true⟩ := by
        simp [oursResolveStep, h1, h2, h3]
      rw [List.foldl_cons, hstep, ih htl]
      simp

theorem oursFold_drop (ls : List String) (hl : ls.all markerFree = true) (res : List String) :
    ls.foldl oursResolveStep ⟨res, true, false⟩ = ⟨res, true, false⟩ := by
  induction ls with
  | nil => rfl
  | cons l tl ih =>
      simp only [List.all_cons, Bool.and_eq_true] at hl
      obtain ⟨hml, htl⟩ := hl
      simp only [markerFree, Bool.and_eq_true, Bool.not_eq_true'] at hml
      obtain ⟨⟨h1, h2⟩, h3⟩ := hml
      have hstep : oursResolveStep ⟨res, true, false⟩ l = ⟨res, true, false⟩ := by
        simp [oursResolveStep, h1, h2, h3]
      rw [List.foldl_cons, hstep, ih htl]

theorem oursFold_render (cs : List FileChunk) (hwf : chunksWF cs = true) :
    ∀ res : List String,
      (renderChunks cs).foldl oursResolveStep ⟨res, false, true⟩ =
        ⟨res ++ oursProjection cs, false, true⟩ := by
  induction cs with
  | nil => intro res; simp [renderChunks, oursProjection]
  | cons c cs ih =>
      intro res
      cases c with
      | plain l =>
          simp only [chunksWF, Bool.and_eq_true] at hwf
          obtain ⟨hml, hrest⟩ := hwf
          simp only [markerFree, Bool.and_eq_true, Bool.not_eq_true'] at hml
          obtain ⟨⟨h1, h2⟩, h3⟩ := hml
          have hstep : oursResolveStep ⟨res, false, true⟩ l = ⟨res ++ [l], false, true⟩ := by
            simp [oursResolveStep, h1, h2, h3]
          simp only [renderChunks, oursProjection, List.foldl_cons, hstep]
          rw [ih hrest]
          simp
      | conflict o t =>
          simp only [chunksWF, Bool.and_eq_true] at hwf
          obtain ⟨⟨ho, hts⟩, hrest⟩ := hwf
          have hopen : oursResolveStep ⟨res, false, true⟩ "<<<<<<< HEAD" =
              ⟨res, true, true⟩ := by
            simp [oursResolveStep, show strStartsWith "<<<<<<< HEAD" "<<<<<<<" = true
              by decide]
          have hmid : oursResolveStep ⟨res ++ o, true, true⟩ "=======" =
              ⟨res ++ o, true, false⟩ := by
            simp [oursResolveStep, show strStartsWith "=======" "<<<<<<<" = false
              by decide, show strStartsWith "=======" "=======" = true by decide]
          have hclose : oursResolveStep ⟨res ++ o, true, false⟩ ">>>>>>> branch" =
              ⟨res ++ o, false, true⟩ := by
            simp [oursResolveStep, show strStartsWith ">>>>>>> branch" "<<<<<<<" = false
              by decide, show strStartsWith ">>>>>>> branch" "=======" = false by decide,
              show strStartsWith ">>>>>>> branch" ">>>>>>>" = true by decide]
          have s1 : List.foldl oursResolveStep ⟨res, false, true⟩ ("<<<<<<< HEAD" :: o) =
              ⟨res ++ o, true, true⟩ := by
            rw [List.foldl_cons, hopen, oursFold_keep o ho res]
          have s2 : List.foldl oursResolveStep ⟨res ++ o, true, true⟩ ["======="] =
              ⟨res ++ o, true, false⟩ := by
            rw [List.foldl_cons, List.foldl_nil, hmid]
          have s3 : List.foldl oursResolveStep ⟨res ++ o, true, false⟩ t =
              ⟨res ++ o, true, false⟩ :=
            oursFold_drop t hts (res ++ o)
          simp only [renderChunks, oursProjection]
          rw [List.foldl_append, List.foldl_append, List.foldl_append]
          rw [s1, s2, s3, List.foldl_cons, hclose, ih hrest]
          simp

theorem dedupPush_dedupInv (p : List String × List String) (l : String) (h : DedupInv p) :
    DedupInv (dedupPush p l) := by
  obtain ⟨h1, h2, h3⟩ := h
  by_cases hb : strTrim l = ""
  · rw [dedupPush_blank p l hb]
    exact ⟨h1, h2, h3⟩
  · by_cases hmem : strTrim l ∈ p.2
    · have heq : dedupPush p l = p := by simp [dedupPush, hb, hmem]
      rw [heq]
      exact ⟨h1, h2, h3⟩
    · have heq : dedupPush p l = (p.1 ++ [l], p.2 ++ [strTrim l]) := by
        simp [dedupPush, hb, hmem]
      rw [heq]
      refine ⟨?_, ?_, ?_⟩
      · intro x hx
        rcases List.mem_append.mp hx with hx1 | hx2
        · obtain ⟨ha, hbb⟩ := h1 x hx1
          exact ⟨ha, List.mem_append_left _ hbb⟩
        · rw [List.mem_singleton.mp hx2]
          exact ⟨hb, List.mem_append_right _ (List.mem_singleton.mpr rfl)⟩
      · intro tr htr
        rcases List.mem_append.mp htr with ht1 | ht2
        · obtain ⟨x, hx, hxe⟩ := h2 tr ht1
          exact ⟨x, List.mem_append_left _ hx, hxe⟩
        · exact ⟨l, List.mem_append_right _ (List.mem_singleton.mpr rfl),
            (List.mem_singleton.mp ht2).symm⟩
      · show List.Pairwise _ (p.1 ++ [l])
        rw [List.pairwise_append]
        refine ⟨h3, List.pairwise_singleton _ _, ?_⟩
        intro a ha b hbm
        rw [List.mem_singleton.mp hbm]
        intro heq2
        exact hmem (heq2 ▸ (h1 a ha).2)

theorem foldl_dedupPush_dedupInv (ls : List String) (p : List String × List String)
    (h : DedupInv p) : DedupInv (ls.foldl dedupPush p) := by
  induction ls generalizing p with
  | nil => exact h
  | cons l tl ih => exact ih _ (dedupPush_dedupInv p l h)

theorem dedupPush_seen_mono (p : List String × List String) (l : String) :
    p.2 ⊆ (dedupPush p l).2 := by
  by_cases hb : strTrim l = ""
  · rw [dedupPush_blank p l hb]
    exact fun x hx => hx
  · by_cases hmem : strTrim l ∈ p.2
    · have heq : dedupPush p l = p := by simp [dedupPush, hb, hmem]
      rw [heq]
      exact fun x hx => hx
    · have heq : dedupPush p l = (p.1 ++ [l], p.2 ++ [strTrim l]) := by
        simp [dedupPush, hb, hmem]
      rw [heq]
      exact List.subset_append_left _ _

theorem foldl_dedupPush_seen_mono (ls : List String) (p : List String × List String) :
    p.2 ⊆ (ls.foldl dedupPush p).2 := by
  induction ls generalizing p with
  | nil => exact fun _ h => h
  | cons l tl ih =>
      rw [List.foldl_cons]
      exact fun x hx => ih _ (dedupPush_seen_mono p l hx)

theorem dedupPush_seen_mem (p : List String × List String) (l : String)
    (h : strTrim l ≠ "") : strTrim l ∈ (dedupPush p l).2 := by
  by_cases hmem : strTrim l ∈ p.2
  · have heq : dedupPush p l = p := by simp [dedupPush, h, hmem]
    rw [heq]
    exact hmem
  · have heq : dedupPush p l = (p.1 ++ [l], p.2 ++ [strTrim l]) := by
      simp [dedupPush, h, hmem]
    rw [heq]
    exact List.mem_append_right _ (List.mem_singleton.mpr rfl)

theorem foldl_dedupPush_seen_mem (ls : List String) (p : List String × List String)
    (l : String) (hl : l ∈ ls) (h : strTrim l ≠ "") :
    strTrim l ∈ (ls.foldl dedupPush p).2 := by
  induction ls generalizing p with
  | nil => simp at hl
  | cons a tl ih =>
      rw [List.foldl_cons]
      rcases List.mem_cons.mp hl with rfl | hl2
      · exact foldl_dedupPush_seen_mono tl _ (dedupPush_seen_mem p l h)
      · exact ih _ hl2

/-- C2: on a well-formed two-way conflicted file, the `commits.txt`
resolver emits exactly the spec's union merge — non-conflicting lines in
first-seen position, then for each conflict hunk its "ours" lines followed
by its "theirs" lines, blanks dropped, deduplicated by exact trimmed
content with first occurrence kept (so no two output lines share a
trimmed form and every non-blank line of either side survives up to
trim) — while the resolver for every other file returns exactly the
"ours" projection, discarding "theirs". -/
theorem resolveFileConflicts_spec (cs : List FileChunk) (hwf : chunksWF cs = true) :
    resolveCommitsLines (renderChunks cs) = unionDedup (flattenChunks cs) ∧
    resolveOtherLines (renderChunks cs) = oursProjection cs ∧
    List.Pairwise (fun a b => strTrim a ≠ strTrim b) (resolveCommitsLines (renderChunks cs)) ∧
    (∀ l ∈ resolveCommitsLines (renderChunks cs), strTrim l ≠ "") ∧
    (∀ l ∈ flattenChunks cs, strTrim l ≠ "" →
      ∃ l2 ∈ resolveCommitsLines (renderChunks cs), strTrim l2 = strTrim l) := by
  have hmain : resolveCommitsLines (renderChunks cs) = unionDedup (flattenChunks cs) := by
    unfold resolveCommitsLines unionDedup
    rw [commitsFold_render cs hwf [] []]
  have hinv : DedupInv ((flattenChunks cs).foldl dedupPush ([], [])) := by
    refine foldl_dedupPush_dedupInv _ _ ?_
    exact ⟨by simp, by simp, List.Pairwise.nil⟩
  obtain ⟨hi1, hi2, hi3⟩ := hinv
  refine ⟨hmain, ?_, ?_, ?_, ?_⟩
  · unfold resolveOtherLines
    rw [oursFold_render cs hwf [], List.nil_append]
  · rw [hmain]
    exact hi3
  · rw [hmain]
    intro l hl
    exact (hi1 l hl).1
  · intro l hl hnb
    rw [hmain]
    have hseen : strTrim l ∈ ((flattenChunks cs).foldl dedupPush ([], [])).2 :=
      foldl_dedupPush_seen_mem _ _ _ hl hnb
    obtain ⟨x, hx, hxe⟩ := hi2 _ hseen
    exact ⟨x, hx, hxe⟩

theorem resolveFileConflicts_spec_witness :
    chunksWF [FileChunk.plain "a", FileChunk.conflict ["x", "y"] ["x", "z"],
      FileChunk.plain "b"] = true ∧
    (resolveCommitsLines (renderChunks [FileChunk.plain "a",
        FileChunk.conflict ["x", "y"] ["x", "z"], FileChunk.plain "b"]) =
      unionDedup (flattenChunks [FileChunk.plain "a",
        FileChunk.conflict ["x", "y"] ["x", "z"], FileChunk.plain "b"]) ∧
    resolveOtherLines (renderChunks [FileChunk.plain "a",
        FileChunk.conflict ["x", "y"] ["x", "z"], FileChunk.plain "b"]) =
      oursProjection [FileChunk.plain "a",
        FileChunk.conflict ["x", "y"] ["x", "z"], FileChunk.plain "b"] ∧
    List.Pairwise (fun a b => strTrim a ≠ strTrim b)
      (resolveCommitsLines (renderChunks [FileChunk.plain "a",
        FileChunk.conflict ["x", "y"] ["x", "z"], FileChunk.plain "b"])) ∧
    (∀ l ∈ resolveCommitsLines (renderChunks [FileChunk.plain "a",
        FileChunk.conflict ["x", "y"] ["x", "z"], FileChunk.plain "b"]), strTrim l ≠ "") ∧
    (∀ l ∈ flattenChunks [FileChunk.plain "a",
        FileChunk.conflict ["x", "y"] ["x", "z"], FileChunk.plain "b"], strTrim l ≠ "" →
      ∃ l2 ∈ resolveCommitsLines (renderChunks [FileChunk.plain "a",
        FileChunk.conflict ["x", "y"] ["x", "z"], FileChunk.plain "b"]),
        strTrim l2 = strTrim l)) :=
  ⟨by decide, resolveFileConflicts_spec [FileChunk.plain "a",
    FileChunk.conflict ["x", "y"] ["x", "z"], FileChunk.plain "b"] (by decide)⟩

theorem workPartitioner_selection_witness :
    (([⟨2024, 0, 2⟩, ⟨2024, 0, 3⟩, ⟨2024, 0, 4⟩] : List CivilDate).reverse).Perm
      [⟨2024, 0, 2⟩, ⟨2024, 0, 3⟩, ⟨2024, 0, 4⟩] ∧
    ((∀ d ∈ (buildWorkPlan [⟨2024, 0, 2⟩, ⟨2024, 0, 3⟩, ⟨2024, 0, 4⟩] 2 5 List.reverse
        (fun _ => 0) List.reverse).datesToProcess,
        d ∈ ([⟨2024, 0, 2⟩, ⟨2024, 0, 3⟩, ⟨2024, 0, 4⟩] : List CivilDate)) ∧
      (([⟨2024, 0, 2⟩, ⟨2024, 0, 3⟩, ⟨2024, 0, 4⟩] : List CivilDate).Nodup →
        (buildWorkPlan [⟨2024, 0, 2⟩, ⟨2024, 0, 3⟩, ⟨2024, 0, 4⟩] 2 5 List.reverse
            (fun _ => 0) List.reverse).datesToProcess.Nodup) ∧
      (buildWorkPlan [⟨2024, 0, 2⟩, ⟨2024, 0, 3⟩, ⟨2024, 0, 4⟩] 2 5 List.reverse
          (fun _ => 0) List.reverse).datesToProcess.length =
        min 2 ([⟨2024, 0, 2⟩, ⟨2024, 0, 3⟩, ⟨2024, 0, 4⟩] : List CivilDate).length ∧
      (buildWorkPlan [⟨2024, 0, 2⟩, ⟨2024, 0, 3⟩, ⟨2024, 0, 4⟩] 2 5 List.reverse
          (fun _ => 0) List.reverse).commitsPerBranch.Perm
        (distributeRemaining (fun _ => 0)
          (List.replicate (min 2 ([⟨2024, 0, 2⟩, ⟨2024, 0, 3⟩, ⟨2024, 0, 4⟩] :
            List CivilDate).length) 1)
          (5 - min 2 ([⟨2024, 0, 2⟩, ⟨2024, 0, 3⟩, ⟨2024, 0, 4⟩] :
            List CivilDate).length)) ∧
      (∀ j < min 2 ([⟨2024, 0, 2⟩, ⟨2024, 0, 3⟩, ⟨2024, 0, 4⟩] : List CivilDate).length,
        (distributeRemaining (fun _ => 0)
            (List.replicate (min 2 ([⟨2024, 0, 2⟩, ⟨2024, 0, 3⟩, ⟨2024, 0, 4⟩] :
              List CivilDate).length) 1)
            (5 - min 2 ([⟨2024, 0, 2⟩, ⟨2024, 0, 3⟩, ⟨2024, 0, 4⟩] :
              List CivilDate).length)).getD j 0 =
          1 + ((List.range (5 - min 2 ([⟨2024, 0, 2⟩, ⟨2024, 0, 3⟩, ⟨2024, 0, 4⟩] :
            List CivilDate).length)).filter fun i => (fun _ : Nat => 0) i = j).length)) :=
  ⟨by decide,
    workPartitioner_selection [⟨2024, 0, 2⟩, ⟨2024, 0, 3⟩, ⟨2024, 0, 4⟩] 2 5 List.reverse
      (fun _ => 0) List.reverse (by decide) (fun v => v.reverse_perm)
      (by intro i; show (0 : Nat) < min 2 3; decide)⟩

/-! ## Push retry and branch reconciliation (C3) -/

/-- C3: a non-forced push that fails with a non-fast-forward message is
retried exactly once, force-flagged; a push that succeeds or fails for any
other reason issues no retry; when the forced retry cannot itself be
rejected as non-fast-forward (the git semantics of `--force`), no
non-fast-forward failure ever reaches the caller; and `createBranch`
deletes a pre-existing remote branch before any checkout. -/
theorem pushBranch_retry_policy (attempt : Bool → PushResult) :
    (attempt false = PushResult.ok → pushBranch attempt false = ([false], PushResult.ok)) ∧
    (∀ msg, attempt false = PushResult.fail msg → isNonFastForwardMsg msg = true →
      pushBranch attempt false = ([false, true], attempt true)) ∧
    (∀ msg, attempt false = PushResult.fail msg → isNonFastForwardMsg msg = false →
      pushBranch attempt false = ([false], PushResult.fail msg)) ∧
    ((pushBranch attempt false).1 = [false] ∨ (pushBranch attempt false).1 = [false, true]) ∧
    ((∀ m2, attempt true = PushResult.fail m2 → isNonFastForwardMsg m2 = false) →
      ∀ m, (pushBranch attempt false).2 = PushResult.fail m →
        isNonFastForwardMsg m = false) ∧
    (∀ existsLocally : Bool, createBranchActions existsLocally true false =
      [GitAction.deleteRemoteBranch,
        if existsLocally then GitAction.checkoutExisting else GitAction.checkoutNew]) := by
  refine ⟨?_, ?_, ?_, ?_, ?_, ?_⟩
  · intro h
    simp [pushBranch, h]
  · intro msg h hnff
    cases h2 : attempt true <;> simp [pushBranch, h, hnff, h2]
  · intro msg h hnff
    simp [pushBranch, h, hnff]
  · cases h : attempt false with
    | ok => simp [pushBranch, h]
    | fail msg =>
        by_cases hnff : isNonFastForwardMsg msg = true
        · cases h2 : attempt true <;> simp [pushBranch, h, hnff, h2]
        · simp at hnff
          simp [pushBranch, h, hnff]
  · intro hforce m hm
    cases h : attempt false with
    | ok => simp [pushBranch, h] at hm
    | fail msg =>
        by_cases hnff : isNonFastForwardMsg msg = true
        · cases h2 : attempt true with
          | ok => simp [pushBranch, h, hnff, h2] at hm
          | fail m2 =>
              simp [pushBranch, h, hnff, h2] at hm
              exact hm ▸ hforce m2 h2
        · simp at hnff
          simp [pushBranch, h, hnff] at hm
          rw [← hm]
          exact hnff
  · intro el
    cases el <;> rfl

theorem pushBranch_retry_policy_witness :
    isNonFastForwardMsg "rejected: non-fast-forward" = true ∧
    pushBranch (fun force => if force then PushResult.ok
        else PushResult.fail "rejected: non-fast-forward") false =
      ([false, true], PushResult.ok) ∧
    createBranchActions true true false =
      [GitAction.deleteRemoteBranch, GitAction.checkoutExisting] := by
  refine ⟨by decide, ?_, ?_⟩
  · have h := (pushBranch_retry_policy (fun force => if force then PushResult.ok
      else PushResult.fail "rejected: non-fast-forward")).2.1
      "rejected: non-fast-forward" (by decide) (by decide)
    simpa using h
  · have h := (pushBranch_retry_policy (fun force => if force then PushResult.ok
      else PushResult.fail "rejected: non-fast-forward")).2.2.2.2.2 true
    simpa using h

/-! ## Commit synthesis lemmas (C6) -/

theorem createCommitsGo_length (y m d : Nat) :
    ∀ (n : Nat) (content : List String) (i : Nat),
      ((createCommitsGo y m d content i n).2).length = n := by
  intro n
  induction n with
  | zero => intro content i; rfl
  | succ k ih =>
      intro content i
      simp only [createCommitsGo, List.length_cons]
      rw [ih]

theorem createCommitsGo_file (y m d : Nat) :
    ∀ (n : Nat) (content : List String) (i : Nat),
      (createCommitsGo y m d content i n).1 =
        content ++ (List.range' i n).map (commitLine y m d) := by
  intro n
  induction n with
  | zero => intro content i; simp [createCommitsGo]
  | succ k ih =>
      intro content i
      simp only [createCommitsGo]
      rw [ih]
      rw [List.range'_succ]
      simp

theorem createCommitsGo_dates (y m d : Nat) :
    ∀ (n : Nat) (content : List String) (i : Nat),
      ∀ c ∈ (createCommitsGo y m d content i n).2, c.authorDate = noonOf y m d := by
  intro n
  induction n with
  | zero => intro content i c hc; simp [createCommitsGo] at hc
  | succ k ih =>
      intro content i c hc
      simp only [createCommitsGo, List.mem_cons] at hc
      rcases hc with rfl | hc2
      · rfl
      · exact ih _ _ c hc2

theorem createCommitsGo_treeLens (y m d : Nat) :
    ∀ (n : Nat) (content : List String) (i : Nat),
      ((createCommitsGo y m d content i n).2).map (fun c => c.tree.length) =
        (List.range n).map (fun k => content.length + k + 1) := by
  intro n
  induction n with
  | zero => intro content i; rfl
  | succ k ih =>
      intro content i
      simp only [createCommitsGo, List.map_cons]
      rw [ih]
      rw [List.range_succ_eq_map]
      simp only [List.map_cons, List.map_map, List.length_append, List.length_cons,
        List.length_nil, Function.comp_def]
      refine List.cons_eq_cons.mpr ⟨by omega, ?_⟩
      apply List.map_congr_left
      intro a _
      omega

/-- C6: `createCommits` with commit count `n ≥ 1` creates exactly `n`
commits; the tracked file ends as the original content plus `n` appended
lines, and successive commit trees each grow by exactly one line (so every
commit changes the tree and every tree differs from the original
content); every commit is authored at the assignment's calendar date at
local noon (month is 0-based inside the `Date` constructor, hence
`m - 1`); and the result is independent of the wall-clock argument. -/
theorem createCommits_spec (content : List String) (n y m d : Nat)
    (now1 now2 : LocalTime) (_hn : 1 ≤ n) :
    ((createCommits content n y m d now1).2).length = n ∧
    (createCommits content n y m d now1).1 =
      content ++ (List.range n).map (commitLine y m d) ∧
    ((createCommits content n y m d now1).2).map (fun c => c.tree.length) =
      (List.range n).map (fun k => content.length + k + 1) ∧
    (∀ c ∈ (createCommits content n y m d now1).2,
      c.authorDate = (⟨y, m - 1, d, 12, 0, 0⟩ : LocalTime)) ∧
    List.Chain' (fun a b => a.tree ≠ b.tree) ((createCommits content n y m d now1).2) ∧
    (∀ c ∈ (createCommits content n y m d now1).2, c.tree ≠ content) ∧
    createCommits content n y m d now1 = createCommits content n y m d now2 := by
  unfold createCommits
  have hlens := createCommitsGo_treeLens y m d n content 0
  have hchainlen : List.Chain' (fun a b => a.tree.length < b.tree.length)
      ((createCommits content n y m d now1).2) := by
    have hr : List.Chain' (· < ·)
        ((List.range n).map (fun k => content.length + k + 1)) := by
      apply List.Pairwise.chain'
      rw [List.pairwise_map]
      apply List.Pairwise.imp ?_ (List.pairwise_lt_range n)
      intro a b hab
      omega
    rw [← hlens] at hr
    rw [List.chain'_map] at hr
    exact hr
  refine ⟨createCommitsGo_length y m d n content 0, ?_, hlens, ?_, ?_, ?_, rfl⟩
  · rw [createCommitsGo_file y m d n content 0]
    congr 1
    rw [show List.range' 0 n = List.range n from (List.range_eq_range' ..).symm]
  · intro c hc
    exact createCommitsGo_dates y m d n content 0 c hc
  · exact hchainlen.imp fun a b hab heq => by rw [heq] at hab; omega
  · intro c hc
    have : c.tree.length ∈ ((createCommitsGo y m d content 0 n).2).map
        (fun c => c.tree.length) := List.mem_map_of_mem _ hc
    rw [hlens] at this
    obtain ⟨k, _, hk⟩ := List.mem_map.mp this
    intro heq
    rw [heq] at hk
    omega

theorem createCommits_spec_witness :
    1 ≤ 2 ∧
    ((createCommits ["old"] 2 2024 1 2 ⟨2026, 9, 12, 8, 30, 0⟩).2).length = 2 ∧
    (∀ c ∈ (createCommits ["old"] 2 2024 1 2 ⟨2026, 9, 12, 8, 30, 0⟩).2,
      c.authorDate = (⟨2024, 0, 2, 12, 0, 0⟩ : LocalTime)) ∧
    createCommits ["old"] 2 2024 1 2 ⟨2026, 9, 12, 8, 30, 0⟩ =
      createCommits ["old"] 2 2024 1 2 ⟨1999, 0, 1, 0, 0, 0⟩ := by
  have h := createCommits_spec ["old"] 2 2024 1 2 ⟨2026, 9, 12, 8, 30, 0⟩
    ⟨1999, 0, 1, 0, 0, 0⟩ (by decide)
  exact ⟨by decide, h.1, h.2.2.2.1, h.2.2.2.2.2.2⟩

/-! ## Review lifecycle idempotence (C7) -/

theorem findPRForBranch_found (remote : List PullRequest) (branchName baseBranch : String)
    (pr : PullRequest) (h : findPRForBranch remote branchName baseBranch = some pr) :
    pr ∈ remote ∧ pr.headRef = branchName ∧ pr.baseRef = baseBranch ∧ pr.state = "open" := by
  unfold findPRForBranch at h
  have hmem := List.mem_of_mem_head? h
  have h1 := (List.mem_filter.mp hmem).2
  have h0 := (List.mem_filter.mp (List.mem_filter.mp hmem).1).1
  simp only [Bool.and_eq_true, beq_iff_eq] at h1
  exact ⟨h0, h1.1.1, h1.1.2, h1.2⟩

theorem findPRForBranch_append_new (remote : List PullRequest)
    (branchName baseBranch : String) (freshNumber : Nat)
    (h : findPRForBranch remote branchName baseBranch = none) :
    findPRForBranch (remote ++ [⟨freshNumber, branchName, baseBranch, "open"⟩])
        branchName baseBranch =
      some ⟨freshNumber, branchName, baseBranch, "open"⟩ := by
  unfold findPRForBranch at *
  rw [List.filter_append, List.filter_append]
  rw [List.head?_eq_none_iff] at h
  rw [h]
  simp

/-- C7: when an open request matching the head/base pair exists, the
controller reuses its number, creates nothing and leaves the remote
unchanged; consequently a second invocation for the same pair — whatever
the first invocation did — never creates a request. -/
theorem createAndMergePR_idempotent (remote : List PullRequest)
    (branchName baseBranch : String) (n1 n2 : Nat) :
    (∀ pr, findPRForBranch remote branchName baseBranch = some pr →
      createAndMergePR remote branchName baseBranch n1 =
        ⟨remote, false, pr.number⟩ ∧ pr ∈ remote ∧ pr.headRef = branchName ∧
        pr.baseRef = baseBranch ∧ pr.state = "open") ∧
    (createAndMergePR (createAndMergePR remote branchName baseBranch n1).remote
      branchName baseBranch n2).prCreated = false := by
  constructor
  · intro pr hpr
    refine ⟨?_, findPRForBranch_found remote branchName baseBranch pr hpr⟩
    unfold createAndMergePR
    rw [hpr]
  · cases h : findPRForBranch remote branchName baseBranch with
    | some pr =>
        unfold createAndMergePR
        rw [h]
        simp only []
        rw [h]
    | none =>
        unfold createAndMergePR
        rw [h]
        simp only []
        rw [findPRForBranch_append_new remote branchName baseBranch n1 h]

theorem createAndMergePR_idempotent_witness :
    findPRForBranch [⟨7, "auto-2024-01-02", "main", "open"⟩] "auto-2024-01-02" "main" =
      some ⟨7, "auto-2024-01-02", "main", "open"⟩ ∧
    createAndMergePR [⟨7, "auto-2024-01-02", "main", "open"⟩] "auto-2024-01-02" "main" 8 =
      ⟨[⟨7, "auto-2024-01-02", "main", "open"⟩], false, 7⟩ ∧
    (createAndMergePR (createAndMergePR [] "auto-2024-01-02" "main" 8).remote
      "auto-2024-01-02" "main" 9).prCreated = false := by
  refine ⟨by decide, ?_, ?_⟩
  · exact ((createAndMergePR_idempotent [⟨7, "auto-2024-01-02", "main", "open"⟩]
      "auto-2024-01-02" "main" 8 9).1 ⟨7, "auto-2024-01-02", "main", "open"⟩ (by decide)).1
  · exact (createAndMergePR_idempotent [] "auto-2024-01-02" "main" 8 9).2

/-! ## Per-assignment loop (C8) -/

theorem foldl_push_eq_map (dates : List String) (outcome : String → StepOutcome) :
    ∀ acc : List ResultRecord,
      dates.foldl (fun acc date => acc ++ [stepRecord date (outcome date)]) acc =
        acc ++ dates.map (fun date => stepRecord date (outcome date)) := by
  induction dates with
  | nil => intro acc; simp
  | cons d tl ih =>
      intro acc
      rw [List.foldl_cons, ih]
      simp

/-- C8: the loop produces one result record per assignment in exactly the
plan's order (it is the map of the per-date step over the date list, so an
exception on one date becomes that date's failure record and the tail is
still processed), and the terminal summary splits the record count into
successes and failures. -/
theorem processLoop_spec (dates : List String) (outcome : String → StepOutcome) :
    processLoop dates outcome = dates.map (fun date => stepRecord date (outcome date)) ∧
    (processLoop dates outcome).length = dates.length ∧
    (∀ pre d post, dates = pre ++ d :: post →
      processLoop dates outcome =
        processLoop pre outcome ++
          stepRecord d (outcome d) :: processLoop post outcome) ∧
    (runSummary (processLoop dates outcome)).1 +
      (runSummary (processLoop dates outcome)).2 = dates.length ∧
    (∀ d msg, outcome d = StepOutcome.threw msg →
      stepRecord d (outcome d) = ⟨false, d, "Exception: " ++ msg⟩) := by
  have hmap : processLoop dates outcome =
      dates.map (fun date => stepRecord date (outcome date)) := by
    unfold processLoop
    rw [foldl_push_eq_map dates outcome []]
    simp
  refine ⟨hmap, ?_, ?_, ?_, ?_⟩
  · rw [hmap, List.length_map]
  · intro pre d post hsplit
    have hpre : processLoop pre outcome =
        pre.map (fun date => stepRecord date (outcome date)) := by
      unfold processLoop
      rw [foldl_push_eq_map pre outcome []]
      simp
    have hpost : processLoop post outcome =
        post.map (fun date => stepRecord date (outcome date)) := by
      unfold processLoop
      rw [foldl_push_eq_map post outcome []]
      simp
    rw [hmap, hsplit, hpre, hpost]
    simp
  · have hle := List.length_filter_le (fun r => r.success) (processLoop dates outcome)
    unfold runSummary
    simp only []
    rw [hmap, List.length_map] at *
    omega
  · intro d msg h
    rw [h]
    rfl

theorem processLoop_spec_witness :
    ((fun date => if date = "2024-01-03" then StepOutcome.threw "boom"
        else StepOutcome.returned ⟨true, date, "ok"⟩) "2024-01-03" =
      StepOutcome.threw "boom") ∧
    processLoop ["2024-01-02", "2024-01-03", "2024-01-04"]
        (fun date => if date = "2024-01-03" then StepOutcome.threw "boom"
          else StepOutcome.returned ⟨true, date, "ok"⟩) =
      [⟨true, "2024-01-02", "ok"⟩, ⟨false, "2024-01-03", "Exception: boom"⟩,
        ⟨true, "2024-01-04", "ok"⟩] ∧
    runSummary (processLoop ["2024-01-02", "2024-01-03", "2024-01-04"]
        (fun date => if date = "2024-01-03" then StepOutcome.threw "boom"
          else StepOutcome.returned ⟨true, date, "ok"⟩)) = (2, 1) := by
  have h := processLoop_spec ["2024-01-02", "2024-01-03", "2024-01-04"]
    (fun date => if date = "2024-01-03" then StepOutcome.threw "boom"
      else StepOutcome.returned ⟨true, date, "ok"⟩)
  refine ⟨by decide, ?_, by decide⟩
  rw [h.1]
  decide

/-! ## Redirect bound (C10) -/

theorem makeRequest_requests_le (responses : Nat → HttpResponse) :
    ∀ (k rc : Nat), 5 - rc ≤ k → (makeRequest responses rc).1 ≤ 5 - rc := by
  intro k
  induction k with
  | zero =>
      intro rc hrc
      have h5 : rc ≥ 5 := by omega
      rw [makeRequest]
      simp [h5]
  | succ j ih =>
      intro rc hrc
      rw [makeRequest]
      by_cases h5 : rc ≥ 5
      · simp [h5]
      · simp only [h5, dite_false]
        cases hr : responses rc with
        | final status => simp; omega
        | redirect loc =>
            simp only []
            have := ih (rc + 1) (by omega)
            omega

theorem makeRequest_cyclic (responses : Nat → HttpResponse) :
    ∀ (k rc : Nat), 5 - rc ≤ k → rc ≤ 5 →
      (∀ i, ∃ loc, responses i = HttpResponse.redirect loc) →
      makeRequest responses rc = (5 - rc, Except.error "Too many redirects (max 5)") := by
  intro k
  induction k with
  | zero =>
      intro rc hrc hle _
      have h5 : rc = 5 := by omega
      subst h5
      rw [makeRequest]
      simp
  | succ j ih =>
      intro rc hrc hle hred
      by_cases h5 : rc ≥ 5
      · have h5e : rc = 5 := by omega
        subst h5e
        rw [makeRequest]
        simp
      · obtain ⟨loc, hloc⟩ := hred rc
        rw [makeRequest]
        simp only [h5, dite_false, hloc]
        rw [ih (rc + 1) (by omega) (by omega) hred]
        have : 5 - (rc + 1) + 1 = 5 - rc := by omega
        rw [this]

/-- C10: `makeRequest` issues no request once the redirect counter has
reached 5 and rejects with the `Too many redirects` error; from counter
`rc` it issues at most `5 - rc` requests, so at most 5 from a fresh call;
on an endlessly redirecting (cyclic) chain it terminates with the
rejection after exactly `5 - rc` requests; and a non-redirect response is
returned directly after a single request. -/
theorem makeRequest_redirect_bound (responses : Nat → HttpResponse) :
    (∀ rc, rc ≥ 5 →
      makeRequest responses rc = (0, Except.error "Too many redirects (max 5)")) ∧
    (∀ rc, (makeRequest responses rc).1 ≤ 5 - rc) ∧
    (makeRequest responses 0).1 ≤ 5 ∧
    (∀ rc, rc ≤ 5 → (∀ i, ∃ loc, responses i = HttpResponse.redirect loc) →
      makeRequest responses rc = (5 - rc, Except.error "Too many redirects (max 5)")) ∧
    (∀ rc status, rc < 5 → responses rc = HttpResponse.final status →
      makeRequest responses rc = (1, Except.ok status)) := by
  refine ⟨?_, ?_, ?_, ?_, ?_⟩
  · intro rc h5
    rw [makeRequest]
    simp [h5]
  · intro rc
    exact makeRequest_requests_le responses (5 - rc) rc (le_refl _)
  · have := makeRequest_requests_le responses 5 0 (by omega)
    omega
  · intro rc hle hred
    exact makeRequest_cyclic responses (5 - rc) rc (le_refl _) hle hred
  · intro rc status h5 hr
    rw [makeRequest]
    have : ¬ rc ≥ 5 := by omega
    simp [this, hr]

theorem makeRequest_redirect_bound_witness :
    (0 : Nat) ≤ 5 ∧
    (∀ i : Nat, ∃ loc, (fun _ : Nat => HttpResponse.redirect "https://loop.example") i =
      HttpResponse.redirect loc) ∧
    makeRequest (fun _ => HttpResponse.redirect "https://loop.example") 0 =
      (5, Except.error "Too many redirects (max 5)") :=
  ⟨by decide, fun i => ⟨"https://loop.example", rfl⟩,
    (makeRequest_redirect_bound (fun _ => HttpResponse.redirect "https://loop.example")).2.2.2.1
      0 (by decide) (fun i => ⟨"https://loop.example", rfl⟩)⟩

end AutoGit
